import Mathlib

/-!
Verification development for the source dependency graph builder
(`src/DependencyGraph.js`).

The JavaScript class `DependencyGraph` keeps a `Map` from files to `Set`s of
their direct dependencies.  Both JS `Map` and JS `Set` preserve insertion
order, so we model the map as an insertion-ordered association list
`List (F x List F)` and each dependency set as a duplicate-free-by-insertion
list.  File identities, raw import specifiers and thrown errors are opaque,
so the whole development is parametric in types `F`, `S` and `E`, with
decidable equality on `F` standing for the SameValueZero key equality of the
JS `Map`.

The extractor `getImports` (imported by the module from `./imports`) and the
resolver method `resolveImport` are the two external collaborators; they are
bundled in an `Env` record of pure functions returning `Except`, modelling
`async` functions that either return a value or throw.

JavaScript recursion carries no fuel; the Lean translation adds an explicit
fuel argument (decremented at each recursive `addDependenciesFrom` call) and
a distinguished `fuelOut` outcome, so that divergence of the JS program is
represented by the build returning `fuelOut` at every fuel.
-/

namespace DependencyGraphSpec

variable {F S E : Type}

/-- Insertion-ordered association list modelling the JS `Map` stored in
`this.dependenciesPerFile`. -/
abbrev DepMap (F : Type) := List (F × List F)

/-- Membership test of the JS `Map.prototype.has`. -/
def mapHas [DecidableEq F] (m : DepMap F) (k : F) : Bool :=
  m.any fun p => decide (p.1 = k)

/-- Lookup of the JS `Map.prototype.get`: `none` models `undefined`. -/
def mapGet [DecidableEq F] (m : DepMap F) (k : F) : Option (List F) :=
  (m.find? fun p => decide (p.1 = k)).map Prod.snd

/-- Update of the JS `Map.prototype.set`: an existing key keeps its position
and gets the new value, a fresh key is appended at the end. -/
def mapSet [DecidableEq F] (m : DepMap F) (k : F) (v : List F) : DepMap F :=
  if mapHas m k then m.map fun p => if p.1 = k then (k, v) else p
  else m ++ [(k, v)]

/-- Insertion of the JS `Set.prototype.add`: appends the element unless it is
already present. -/
def setAdd [DecidableEq F] (s : List F) (x : F) : List F :=
  if x ∈ s then s else s ++ [x]

/-- Keys of the map, in insertion order (the JS `Map.prototype.keys`). -/
def keysOf (m : DepMap F) : List F := m.map Prod.fst

/-- Current dependency list of a file (`[]` when the file has no entry). -/
def depsOf [DecidableEq F] (m : DepMap F) (k : F) : List F :=
  (mapGet m k).getD []

/-- Effect of `dependencies.add(dependency)` in `addDependenciesFrom`: the
local variable `dependencies` aliases the set stored in the map under `file`,
so adding to it rewrites the map entry of `file` in place. -/
def addDep [DecidableEq F] (m : DepMap F) (file dep : F) : DepMap F :=
  mapSet m file (setAdd (depsOf m file) dep)

/-- External collaborators of the traversal: `getImports` is the module-level
extractor imported from `./imports`, `resolveImport` is the method of the
`resolver` argument.  `Except.error` models a thrown/rejected error. -/
structure Env (F S E : Type) where
  getImports : F → Except E (List S)
  resolveImport : F → S → Except E F

/-- Outcome of the traversal on the raw map: a finished map, a thrown error,
or fuel exhaustion (the marker for divergence of the fuel-free JS original).
-/
inductive BuildRes (F E : Type) where
  | ok (g : DepMap F)
  | err (e : E)
  | fuelOut
deriving DecidableEq

/-- Body of the `for (const imp of imports)` loop of `addDependenciesFrom`:
resolve the specifier, add the resolved dependency to the set of `file`
(which aliases the map entry), and recurse through `recur` when the
dependency has no map entry yet.  The recursive call
`this.addDependenciesFrom(resolver, dependency)` is abstracted as `recur`,
instantiated below with the same function at one less fuel. -/
def processImports [DecidableEq F] (env : Env F S E)
    (recur : DepMap F → F → BuildRes F E) (g : DepMap F) (file : F) :
    List S → BuildRes F E
  | [] => .ok g
  | imp :: rest =>
    match env.resolveImport file imp with
    | .error e => .err e
    | .ok dependency =>
      if mapHas (addDep g file dependency) dependency then
        processImports env recur (addDep g file dependency) file rest
      else
        match recur (addDep g file dependency) dependency with
        | .ok g2 => processImports env recur g2 file rest
        | r => r

/-- Translation of `async addDependenciesFrom(resolver, file)`: register
`file` with a fresh empty dependency set, then extract its imports and run
the resolution loop. -/
def addDependenciesFrom [DecidableEq F] (env : Env F S E) :
    Nat → DepMap F → F → BuildRes F E
  | 0, _, _ => .fuelOut
  | fuel + 1, g, file =>
    match env.getImports file with
    | .error e => .err e
    | .ok imports =>
      processImports env (addDependenciesFrom env fuel) (mapSet g file [])
        file imports

/-- Translation of the `for (const entryPoint of entryPoints)` loop of
`createFromMultipleEntryPoints`. -/
def buildLoop [DecidableEq F] (env : Env F S E) (fuel : Nat) :
    DepMap F → List F → BuildRes F E
  | g, [] => .ok g
  | g, ep :: rest =>
    if mapHas g ep then buildLoop env fuel g rest
    else
      match addDependenciesFrom env fuel g ep with
      | .ok g1 => buildLoop env fuel g1 rest
      | r => r

/-- State of the `DependencyGraph` instance: the dependency map together with
the `entryPoints` field stored by the constructor. -/
structure DependencyGraph (F : Type) where
  dependenciesPerFile : DepMap F
  entryPoints : List F
deriving DecidableEq

/-- Outcome of the two static factory methods. -/
inductive CreateRes (F E : Type) where
  | ok (g : DependencyGraph F)
  | err (e : E)
  | fuelOut
deriving DecidableEq

/-- Translation of `static async createFromMultipleEntryPoints`. -/
def createFromMultipleEntryPoints [DecidableEq F] (env : Env F S E)
    (fuel : Nat) (entryPoints : List F) : CreateRes F E :=
  match buildLoop env fuel [] entryPoints with
  | .ok m => .ok ⟨m, entryPoints⟩
  | .err e => .err e
  | .fuelOut => .fuelOut

/-- Translation of `static async createFromEntryPoint`, which delegates to
`createFromMultipleEntryPoints` on the singleton list. -/
def createFromEntryPoint [DecidableEq F] (env : Env F S E) (fuel : Nat)
    (entryPoint : F) : CreateRes F E :=
  createFromMultipleEntryPoints env fuel [entryPoint]

/-- Translation of `getResolvedFiles()`, which returns the keys of the map in
insertion order. -/
def getResolvedFiles (g : DependencyGraph F) : List F :=
  g.dependenciesPerFile.map Prod.fst

/-- Exposed dependency query of the graph: reading
`dependenciesPerFile.get(file)`, which is `undefined` (here `none`) for a
file that was never registered. -/
def dependenciesOf [DecidableEq F] (g : DependencyGraph F) (file : F) :
    Option (List F) :=
  mapGet g.dependenciesPerFile file

/-- Reachability through chains of successful extraction and resolution,
starting from the entry points: this is the class of files the traversal is
meant to discover. -/
inductive Reaches (env : Env F S E) (entries : List F) : F → Prop where
  | entry {f : F} : f ∈ entries → Reaches env entries f
  | step {f : F} {L : List S} {s : S} {d : F} : Reaches env entries f →
      env.getImports f = .ok L → s ∈ L → env.resolveImport f s = .ok d →
      Reaches env entries d

/-- Between two traversal states, every existing dependency list is only ever
extended at its end (the JS code mutates each `Set` by `add` only). -/
def Growth [DecidableEq F] (m m' : DepMap F) : Prop :=
  ∀ f l, mapGet m f = some l → ∃ l2, mapGet m' f = some (l ++ l2)

/-- Closure of a class of files under successful extraction and resolution:
resolved direct imports of a file in the class stay in the class. -/
def ClosedUnder (env : Env F S E) (P : F → Prop) : Prop :=
  ∀ f, P f → ∀ L, env.getImports f = .ok L →
    ∀ s ∈ L, ∀ d, env.resolveImport f s = .ok d → P d

/-- An error value actually produced by one of the two collaborators during
a visit of a file in the class `P`: either extraction of such a file failed
with it, or resolution of one of the specifiers actually extracted from such
a file failed with it. -/
def ErrFrom (env : Env F S E) (P : F → Prop) (e : E) : Prop :=
  ∃ f, P f ∧
    (env.getImports f = .error e ∨
      ∃ L s, env.getImports f = .ok L ∧ s ∈ L ∧
        env.resolveImport f s = .error e)

/-- Number of files of the finite universe `U` that have no map entry yet.
This is the decreasing measure of the traversal: every visit registers a
previously unregistered file. -/
def unadmitted [DecidableEq F] (U : Finset F) (m : DepMap F) : Nat :=
  (U.filter fun u => u ∉ keysOf m).card

/-- Every specifier of `L` resolves successfully and its resolution is
already recorded among the dependencies of `f` in `m`. -/
def ResolvedInto [DecidableEq F] (env : Env F S E) (m : DepMap F) (f : F) (L : List S) : Prop :=
  ∀ s ∈ L, ∃ d, env.resolveImport f s = .ok d ∧ d ∈ depsOf m f

/-- The extraction of `f` succeeded and every one of its specifiers has its
resolution recorded: the visit of `f` ran to completion. -/
def FullyRes [DecidableEq F] (env : Env F S E) (m : DepMap F) (f : F) : Prop :=
  ∃ L, env.getImports f = .ok L ∧ ResolvedInto env m f L

/-- Every recorded dependency is justified by a successful resolution of a
specifier actually extracted from its file. -/
def SoundAll [DecidableEq F] (env : Env F S E) (m : DepMap F) : Prop :=
  ∀ f ∈ keysOf m, ∀ d ∈ depsOf m f,
    ∃ L s, env.getImports f = .ok L ∧ s ∈ L ∧ env.resolveImport f s = .ok d

/-- Every recorded dependency is itself registered as a key, except possibly
the distinguished file `x` (the one about to be visited). -/
def DepsRegisteredExcept [DecidableEq F] (m : DepMap F) (x : F) : Prop :=
  ∀ f ∈ keysOf m, ∀ d ∈ depsOf m f, d ∈ keysOf m ∨ d = x

/-- Every recorded dependency is itself registered as a key. -/
def DepsRegistered [DecidableEq F] (m : DepMap F) : Prop :=
  ∀ f ∈ keysOf m, ∀ d ∈ depsOf m f, d ∈ keysOf m

/-- Observable events of the traversal, used to audit how often, in which
order and on which files the collaborators are consulted: `visit f` is the
registration of `f` with a fresh empty dependency set at the start of its
visit, `extract f` is the call `getImports(f)`, and `resolve f s` is the
call `resolver.resolveImport(f, s)`. -/
inductive Ev (F S : Type) where
  | visit (f : F)
  | extract (f : F)
  | resolve (f : F) (s : S)
deriving DecidableEq

/-- Files of the visit events of a trace, in order. -/
def visitsOf : List (Ev F S) → List F
  | [] => []
  | .visit f :: t => f :: visitsOf t
  | .extract _ :: t => visitsOf t
  | .resolve _ _ :: t => visitsOf t

/-- Files of the extraction events of a trace, in order. -/
def extractsOf : List (Ev F S) → List F
  | [] => []
  | .visit _ :: t => extractsOf t
  | .extract f :: t => f :: extractsOf t
  | .resolve _ _ :: t => extractsOf t

/-- Specifiers of the resolution events charged to source file `f`, in
order. -/
def resolvesSrc [DecidableEq F] (f : F) : List (Ev F S) → List S
  | [] => []
  | .visit _ :: t => resolvesSrc f t
  | .extract _ :: t => resolvesSrc f t
  | .resolve g s :: t =>
    if g = f then s :: resolvesSrc f t else resolvesSrc f t

/-- Scanning property of a trace: every extraction or resolution event
concerns a file visited earlier in the trace or already registered in the
starting set `V`.  This is the formal shape of "a file is admitted strictly
before any further work on it". -/
def VisitedBefore (V : List F) : List (Ev F S) → Prop
  | [] => True
  | .visit f :: t => VisitedBefore (f :: V) t
  | .extract f :: t => f ∈ V ∧ VisitedBefore V t
  | .resolve f _ :: t => f ∈ V ∧ VisitedBefore V t

/-- Instrumented copy of `processImports` that additionally returns the
collaborator events in execution order; the graph computation is identical.
-/
def processImportsT [DecidableEq F] (env : Env F S E)
    (recur : DepMap F → F → List (Ev F S) × BuildRes F E) (g : DepMap F)
    (file : F) : List S → List (Ev F S) × BuildRes F E
  | [] => ([], .ok g)
  | imp :: rest =>
    match env.resolveImport file imp with
    | .error e => ([.resolve file imp], .err e)
    | .ok dependency =>
      if mapHas (addDep g file dependency) dependency then
        let r := processImportsT env recur (addDep g file dependency) file rest
        (.resolve file imp :: r.1, r.2)
      else
        match recur (addDep g file dependency) dependency with
        | (t1, .ok g2) =>
          let r := processImportsT env recur g2 file rest
          (.resolve file imp :: t1 ++ r.1, r.2)
        | (t1, .err e) => (.resolve file imp :: t1, .err e)
        | (t1, .fuelOut) => (.resolve file imp :: t1, .fuelOut)

/-- Instrumented copy of `addDependenciesFrom`: the `visit` event precedes
the `extract` event because the JS method calls
`this.dependenciesPerFile.set(file, dependencies)` before `getImports(file)`.
-/
def addDependenciesFromT [DecidableEq F] (env : Env F S E) :
    Nat → DepMap F → F → List (Ev F S) × BuildRes F E
  | 0, _, _ => ([], .fuelOut)
  | fuel + 1, g, file =>
    match env.getImports file with
    | .error e => ([.visit file, .extract file], .err e)
    | .ok imports =>
      let r := processImportsT env (addDependenciesFromT env fuel)
        (mapSet g file []) file imports
      (.visit file :: .extract file :: r.1, r.2)

/-- Instrumented copy of `buildLoop`. -/
def buildLoopT [DecidableEq F] (env : Env F S E) (fuel : Nat) :
    DepMap F → List F → List (Ev F S) × BuildRes F E
  | g, [] => ([], .ok g)
  | g, ep :: rest =>
    if mapHas g ep then buildLoopT env fuel g rest
    else
      match addDependenciesFromT env fuel g ep with
      | (t1, .ok g1) =>
        let r := buildLoopT env fuel g1 rest
        (t1 ++ r.1, r.2)
      | (t1, .err e) => (t1, .err e)
      | (t1, .fuelOut) => (t1, .fuelOut)

/-- Instrumented copy of `createFromMultipleEntryPoints`. -/
def createFromMultipleEntryPointsT [DecidableEq F] (env : Env F S E)
    (fuel : Nat) (entryPoints : List F) : List (Ev F S) × CreateRes F E :=
  match buildLoopT env fuel [] entryPoints with
  | (t, .ok m) => (t, .ok ⟨m, entryPoints⟩)
  | (t, .err e) => (t, .err e)
  | (t, .fuelOut) => (t, .fuelOut)

/-- Every collaborator call recorded in the trace succeeded: each extraction
event hit a file whose extraction returns a specifier list and each
resolution event hit a pair on which the resolver returns a file. -/
def CallsOk (env : Env F S E) (t : List (Ev F S)) : Prop :=
  (∀ f, Ev.extract f ∈ t → ∃ L, env.getImports f = .ok L) ∧
  (∀ f s, Ev.resolve f s ∈ t → ∃ d, env.resolveImport f s = .ok d)

/-- The event is a collaborator call that fails with error `e`. -/
def FailsWith (env : Env F S E) (ev : Ev F S) (e : E) : Prop :=
  (∃ f, ev = .extract f ∧ env.getImports f = .error e) ∨
  (∃ f s, ev = .resolve f s ∧ env.resolveImport f s = .error e)

/-- Environment with a direct self-cycle at file `0` together with an
unbounded fresh chain: `0` imports `0` and `1`, every file `n + 1` imports
`n + 2`.  Every specifier names its target file and always resolves. -/
def chainEnv : Env Nat Nat Unit where
  getImports f := .ok (if f = 0 then [0, 1] else [f + 1])
  resolveImport _ s := .ok s

/-- Two-file cyclic environment: file `0` imports file `1` and file `1`
imports file `0`; every specifier names its target file. -/
def envAB : Env Nat Nat Unit where
  getImports f := .ok (if f = 0 then [1] else [0])
  resolveImport _ s := .ok s

/-- Straight-line environment: file `0` imports file `1`, file `1` imports
nothing. -/
def envLine : Env Nat Nat Unit where
  getImports f := .ok (if f = 0 then [1] else [])
  resolveImport _ s := .ok s

/-- Diamond environment: files `0` and `1` both import file `2`, which
imports nothing. -/
def envDiamond : Env Nat Nat Unit where
  getImports f := .ok (if f = 2 then [] else [2])
  resolveImport _ s := .ok s

/-- Environment in which file `0` carries a specifier `9` that the resolver
rejects. -/
def envMissing : Env Nat Nat String where
  getImports f := .ok (if f = 0 then [1, 9] else [])
  resolveImport _ s := if s = 9 then .error "missing" else .ok s

section MapLemmas

variable [DecidableEq F]

theorem mapHas_iff {m : DepMap F} {k : F} :
    mapHas m k = true ↔ k ∈ keysOf m := by
  rw [mapHas, List.any_eq_true, keysOf, List.mem_map]
  constructor
  · rintro ⟨p, hp, h⟩; exact ⟨p, hp, of_decide_eq_true h⟩
  · rintro ⟨p, hp, h⟩; exact ⟨p, hp, decide_eq_true h⟩

theorem mapHas_eq_false_iff {m : DepMap F} {k : F} :
    mapHas m k = false ↔ k ∉ keysOf m := by
  rw [← Bool.not_eq_true, not_iff_not]; exact mapHas_iff

omit [DecidableEq F] in
theorem keysOf_append {m₁ m₂ : DepMap F} :
    keysOf (m₁ ++ m₂) = keysOf m₁ ++ keysOf m₂ := by
  simp [keysOf]

theorem mapGet_cons {q : F × List F} {m : DepMap F} {k : F} :
    mapGet (q :: m) k = if q.1 = k then some q.2 else mapGet m k := by
  rw [mapGet, List.find?_cons]
  by_cases h : q.1 = k
  · simp [decide_eq_true h, h]
  · simp [decide_eq_false h, h, mapGet]

theorem keysOf_mapSet_of_has {m : DepMap F} {k : F} {v : List F}
    (h : mapHas m k = true) : keysOf (mapSet m k v) = keysOf m := by
  simp only [mapSet, h, if_true, keysOf, List.map_map]
  apply List.map_congr_left
  intro p _
  by_cases hp : p.1 = k <;> simp [hp]

theorem keysOf_mapSet_of_not_has {m : DepMap F} {k : F} {v : List F}
    (h : mapHas m k = false) : keysOf (mapSet m k v) = keysOf m ++ [k] := by
  simp [mapSet, h, keysOf]

theorem mapGet_eq_none_iff {m : DepMap F} {k : F} :
    mapGet m k = none ↔ k ∉ keysOf m := by
  rw [mapGet, Option.map_eq_none', List.find?_eq_none]
  constructor
  · intro h hk
    rw [keysOf, List.mem_map] at hk
    obtain ⟨p, hp, hpk⟩ := hk
    exact absurd (decide_eq_true hpk) (h p hp)
  · intro h p hp hd
    exact h (by rw [keysOf, List.mem_map]; exact ⟨p, hp, of_decide_eq_true hd⟩)

theorem mapGet_isSome_of_mem {m : DepMap F} {k : F} (h : k ∈ keysOf m) :
    ∃ l, mapGet m k = some l := by
  cases hg : mapGet m k with
  | none => exact absurd h (mapGet_eq_none_iff.mp hg)
  | some l => exact ⟨l, rfl⟩

theorem mapGet_overwrite_mem {m : DepMap F} {k : F} {v : List F}
    (h : k ∈ keysOf m) :
    mapGet (m.map fun p => if p.1 = k then (k, v) else p) k = some v := by
  induction m with
  | nil => cases h
  | cons q m ih =>
    by_cases hq : q.1 = k
    · simp [List.map_cons, hq, mapGet_cons]
    · rw [List.map_cons, if_neg hq, mapGet_cons, if_neg hq]
      simp only [keysOf, List.map_cons, List.mem_cons] at h
      rcases h with h | h
      · exact absurd h.symm hq
      · exact ih h

theorem mapGet_overwrite_ne {m : DepMap F} {k k' : F} {v : List F}
    (h : k' ≠ k) :
    mapGet (m.map fun p => if p.1 = k then (k, v) else p) k' = mapGet m k' := by
  induction m with
  | nil => rfl
  | cons q m ih =>
    by_cases hq : q.1 = k
    · have hq' : ¬q.1 = k' := fun hc => h (hq ▸ hc : k = k').symm
      have hq'' : ¬(k = k') := fun hc => h hc.symm
      rw [List.map_cons, if_pos hq, mapGet_cons, mapGet_cons,
        if_neg hq'', if_neg hq']
      exact ih
    · rw [List.map_cons, if_neg hq, mapGet_cons, mapGet_cons]
      by_cases hq' : q.1 = k'
      · simp [hq']
      · rw [if_neg hq', if_neg hq']
        exact ih

theorem mapGet_append_single_ne {m : DepMap F} {k k' : F} {v : List F}
    (h : k' ≠ k) : mapGet (m ++ [(k, v)]) k' = mapGet m k' := by
  induction m with
  | nil =>
    have : ¬(k = k') := fun hc => h hc.symm
    simp [mapGet_cons, this, mapGet]
  | cons q m ih =>
    rw [List.cons_append, mapGet_cons, mapGet_cons]
    by_cases hq' : q.1 = k'
    · simp [hq']
    · rw [if_neg hq', if_neg hq']
      exact ih

theorem mapGet_append_single_self {m : DepMap F} {k : F} {v : List F}
    (h : k ∉ keysOf m) : mapGet (m ++ [(k, v)]) k = some v := by
  induction m with
  | nil => simp [mapGet_cons]
  | cons q m ih =>
    simp only [keysOf, List.map_cons, List.mem_cons, not_or] at h
    rw [List.cons_append, mapGet_cons, if_neg (fun hq => h.1 hq.symm)]
    exact ih h.2

theorem mapGet_mapSet_self {m : DepMap F} {k : F} {v : List F} :
    mapGet (mapSet m k v) k = some v := by
  unfold mapSet
  by_cases h : mapHas m k = true
  · rw [if_pos h]
    exact mapGet_overwrite_mem (mapHas_iff.mp h)
  · rw [if_neg h]
    rw [Bool.not_eq_true, mapHas_eq_false_iff] at h
    exact mapGet_append_single_self h

theorem mapGet_mapSet_ne {m : DepMap F} {k k' : F} {v : List F}
    (h : k' ≠ k) : mapGet (mapSet m k v) k' = mapGet m k' := by
  unfold mapSet
  by_cases hk : mapHas m k = true
  · rw [if_pos hk]
    exact mapGet_overwrite_ne h
  · rw [if_neg hk]
    exact mapGet_append_single_ne h

theorem depsOf_mapSet_self {m : DepMap F} {k : F} {v : List F} :
    depsOf (mapSet m k v) k = v := by
  simp [depsOf, mapGet_mapSet_self]

theorem depsOf_mapSet_ne {m : DepMap F} {k k' : F} {v : List F}
    (h : k' ≠ k) : depsOf (mapSet m k v) k' = depsOf m k' := by
  simp [depsOf, mapGet_mapSet_ne h]

theorem mem_setAdd {s : List F} {x y : F} :
    y ∈ setAdd s x ↔ y ∈ s ∨ y = x := by
  unfold setAdd
  by_cases h : x ∈ s
  · simp only [if_pos h]
    constructor
    · exact Or.inl
    · rintro (hy | rfl) <;> [exact hy; exact h]
  · simp [if_neg h]

theorem self_mem_setAdd {s : List F} {x : F} : x ∈ setAdd s x :=
  mem_setAdd.mpr (Or.inr rfl)

theorem setAdd_eq_append {s : List F} {x : F} :
    setAdd s x = s ∨ setAdd s x = s ++ [x] := by
  unfold setAdd; by_cases h : x ∈ s <;> simp [h]

theorem keysOf_addDep_of_mem {m : DepMap F} {file dep : F}
    (h : file ∈ keysOf m) : keysOf (addDep m file dep) = keysOf m :=
  keysOf_mapSet_of_has (mapHas_iff.mpr h)

theorem mapGet_addDep_ne {m : DepMap F} {file dep k : F} (h : k ≠ file) :
    mapGet (addDep m file dep) k = mapGet m k :=
  mapGet_mapSet_ne h

theorem depsOf_addDep_self {m : DepMap F} {file dep : F} :
    depsOf (addDep m file dep) file = setAdd (depsOf m file) dep :=
  depsOf_mapSet_self

end MapLemmas

section Unfolding

variable [DecidableEq F]

theorem processImports_nil {env : Env F S E} {recur} {g : DepMap F} {file : F} :
    processImports env recur g file [] = .ok g := rfl

theorem processImports_cons {env : Env F S E} {recur} {g : DepMap F} {file : F}
    {imp : S} {rest : List S} :
    processImports env recur g file (imp :: rest) =
      match env.resolveImport file imp with
      | .error e => .err e
      | .ok dependency =>
        if mapHas (addDep g file dependency) dependency then
          processImports env recur (addDep g file dependency) file rest
        else
          match recur (addDep g file dependency) dependency with
          | .ok g2 => processImports env recur g2 file rest
          | r => r := rfl

theorem addDependenciesFrom_zero {env : Env F S E} {g : DepMap F} {file : F} :
    addDependenciesFrom env 0 g file = .fuelOut := rfl

theorem addDependenciesFrom_succ {env : Env F S E} {fuel : Nat} {g : DepMap F}
    {file : F} :
    addDependenciesFrom env (fuel + 1) g file =
      match env.getImports file with
      | .error e => .err e
      | .ok imports =>
        processImports env (addDependenciesFrom env fuel) (mapSet g file [])
          file imports := rfl

theorem buildLoop_nil {env : Env F S E} {fuel : Nat} {g : DepMap F} :
    buildLoop env fuel g [] = .ok g := rfl

theorem buildLoop_cons {env : Env F S E} {fuel : Nat} {g : DepMap F} {ep : F}
    {rest : List F} :
    buildLoop env fuel g (ep :: rest) =
      if mapHas g ep then buildLoop env fuel g rest
      else
        match addDependenciesFrom env fuel g ep with
        | .ok g1 => buildLoop env fuel g1 rest
        | r => r := rfl

end Unfolding

section Monotonicity

variable [DecidableEq F]

theorem growth_rfl {m : DepMap F} : Growth m m :=
  fun _ l h => ⟨[], by simpa using h⟩

theorem Growth.trans {m₁ m₂ m₃ : DepMap F} (h1 : Growth m₁ m₂)
    (h2 : Growth m₂ m₃) : Growth m₁ m₃ := by
  intro f l hl
  obtain ⟨l2, hl2⟩ := h1 f l hl
  obtain ⟨l3, hl3⟩ := h2 f (l ++ l2) hl2
  exact ⟨l2 ++ l3, by simpa [List.append_assoc] using hl3⟩

theorem Growth.mem_depsOf {m m' : DepMap F} {f d : F} (hg : Growth m m')
    (hf : f ∈ keysOf m) (hd : d ∈ depsOf m f) : d ∈ depsOf m' f := by
  obtain ⟨l, hl⟩ := mapGet_isSome_of_mem hf
  obtain ⟨l2, hl2⟩ := hg f l hl
  rw [depsOf, hl] at hd
  rw [depsOf, hl2]
  exact List.mem_append_left _ hd

theorem growth_addDep {m : DepMap F} {file dep : F} :
    Growth m (addDep m file dep) := by
  intro f l hl
  by_cases hf : f = file
  · subst hf
    have hdeps : depsOf m f = l := by rw [depsOf, hl]; rfl
    rcases setAdd_eq_append (s := depsOf m f) (x := dep) with h | h
    · refine ⟨[], ?_⟩
      rw [addDep, mapGet_mapSet_self, h, hdeps]
      simp
    · refine ⟨[dep], ?_⟩
      rw [addDep, mapGet_mapSet_self, h, hdeps]
  · rw [mapGet_addDep_ne hf]
    exact ⟨[], by simpa using hl⟩

theorem growth_mapSet_fresh {m : DepMap F} {k : F} {v : List F}
    (h : mapHas m k = false) : Growth m (mapSet m k v) := by
  intro f l hl
  by_cases hf : f = k
  · subst hf
    rw [mapGet_eq_none_iff.mpr (mapHas_eq_false_iff.mp h)] at hl
    cases hl
  · rw [mapGet_mapSet_ne hf]
    exact ⟨[], by simpa using hl⟩

theorem keys_prefix_addDep {m : DepMap F} {file dep : F} :
    keysOf m <+: keysOf (addDep m file dep) := by
  cases h : mapHas m file with
  | true =>
    rw [keysOf_addDep_of_mem (mapHas_iff.mp h)]
  | false =>
    rw [show keysOf (addDep m file dep) = keysOf m ++ [file] from
      keysOf_mapSet_of_not_has h]
    exact List.prefix_append _ _

theorem keys_prefix_mapSet_fresh {m : DepMap F} {k : F} {v : List F}
    (h : mapHas m k = false) : keysOf m <+: keysOf (mapSet m k v) := by
  rw [keysOf_mapSet_of_not_has h]
  exact List.prefix_append _ _

/-- Monotonicity of the resolution loop: on success, previously registered
keys survive as a prefix of the new key sequence and dependency lists only
grow.  The recursive collaborator is abstracted by `hrec`. -/
theorem processImports_mono {env : Env F S E}
    {recur : DepMap F → F → BuildRes F E} {file : F}
    (hrec : ∀ m f m', mapHas m f = false → recur m f = .ok m' →
      (keysOf m <+: keysOf m') ∧ f ∈ keysOf m' ∧ Growth m m') :
    ∀ (imps : List S) (m m' : DepMap F),
      processImports env recur m file imps = .ok m' →
      (keysOf m <+: keysOf m') ∧ Growth m m' := by
  intro imps
  induction imps with
  | nil =>
    intro m m' h
    rw [processImports_nil] at h
    cases h
    exact ⟨List.prefix_rfl, growth_rfl⟩
  | cons imp rest ih =>
    intro m m' h
    rw [processImports_cons] at h
    cases hr : env.resolveImport file imp with
    | error e =>
      simp only [hr] at h
      exact BuildRes.noConfusion h
    | ok dep =>
      simp only [hr] at h
      by_cases hhas : mapHas (addDep m file dep) dep = true
      · rw [if_pos hhas] at h
        obtain ⟨hp, hg⟩ := ih _ _ h
        exact ⟨keys_prefix_addDep.trans hp, growth_addDep.trans hg⟩
      · rw [if_neg hhas] at h
        rw [Bool.not_eq_true] at hhas
        cases hres : recur (addDep m file dep) dep with
        | ok g2 =>
          simp only [hres] at h
          obtain ⟨hp1, _, hg1⟩ := hrec _ _ _ hhas hres
          obtain ⟨hp2, hg2⟩ := ih _ _ h
          exact ⟨keys_prefix_addDep.trans (hp1.trans hp2),
            growth_addDep.trans (hg1.trans hg2)⟩
        | err e =>
          simp only [hres] at h
          exact BuildRes.noConfusion h
        | fuelOut =>
          simp only [hres] at h
          exact BuildRes.noConfusion h

/-- Monotonicity of a whole visit: on success the old keys are a prefix of
the new ones, the visited file is now a key, and dependency lists only grow.
-/
theorem addDependenciesFrom_mono {env : Env F S E} :
    ∀ (fuel : Nat) (m : DepMap F) (file : F) (m' : DepMap F),
      mapHas m file = false → addDependenciesFrom env fuel m file = .ok m' →
      (keysOf m <+: keysOf m') ∧ file ∈ keysOf m' ∧ Growth m m' := by
  intro fuel
  induction fuel with
  | zero =>
    intro m file m' _ h
    rw [addDependenciesFrom_zero] at h
    exact BuildRes.noConfusion h
  | succ fuel ih =>
    intro m file m' hfresh h
    rw [addDependenciesFrom_succ] at h
    cases hi : env.getImports file with
    | error e =>
      simp only [hi] at h
      exact BuildRes.noConfusion h
    | ok imports =>
      simp only [hi] at h
      obtain ⟨hp, hg⟩ := processImports_mono (fun m f m' hf hok => ih m f m' hf hok) _ _ _ h
      have hmem : file ∈ keysOf (mapSet m file []) := by
        rw [keysOf_mapSet_of_not_has hfresh]
        exact List.mem_append_right _ (List.mem_singleton.mpr rfl)
      exact ⟨(keys_prefix_mapSet_fresh hfresh).trans hp, hp.subset hmem,
        (growth_mapSet_fresh hfresh).trans hg⟩

/-- Monotonicity of the entry-point loop. -/
theorem buildLoop_mono {env : Env F S E} {fuel : Nat} :
    ∀ (eps : List F) (m m' : DepMap F),
      buildLoop env fuel m eps = .ok m' →
      (keysOf m <+: keysOf m') ∧ Growth m m' := by
  intro eps
  induction eps with
  | nil =>
    intro m m' h
    rw [buildLoop_nil] at h
    cases h
    exact ⟨List.prefix_rfl, growth_rfl⟩
  | cons ep rest ih =>
    intro m m' h
    rw [buildLoop_cons] at h
    by_cases hhas : mapHas m ep = true
    · rw [if_pos hhas] at h
      exact ih _ _ h
    · rw [if_neg hhas] at h
      rw [Bool.not_eq_true] at hhas
      cases hres : addDependenciesFrom env fuel m ep with
      | ok g1 =>
        simp only [hres] at h
        obtain ⟨hp1, _, hg1⟩ := addDependenciesFrom_mono fuel m ep g1 hhas hres
        obtain ⟨hp2, hg2⟩ := ih _ _ h
        exact ⟨hp1.trans hp2, hg1.trans hg2⟩
      | err e =>
        simp only [hres] at h
        exact BuildRes.noConfusion h
      | fuelOut =>
        simp only [hres] at h
        exact BuildRes.noConfusion h

end Monotonicity

section ClosedUniverse

variable [DecidableEq F]

theorem keys_mapSet_subset {m : DepMap F} {k : F} {v : List F} :
    keysOf (mapSet m k v) ⊆ keysOf m ++ [k] := by
  cases h : mapHas m k with
  | true =>
    rw [keysOf_mapSet_of_has h]
    exact List.subset_append_left _ _
  | false =>
    rw [keysOf_mapSet_of_not_has h]
    exact List.Subset.refl _

theorem allP_mapSet {P : F → Prop} {m : DepMap F} {k : F} {v : List F}
    (hm : ∀ f ∈ keysOf m, P f) (hk : P k) :
    ∀ f ∈ keysOf (mapSet m k v), P f := by
  intro f hf
  rcases List.mem_append.mp (keys_mapSet_subset hf) with hf | hf
  · exact hm f hf
  · rw [List.mem_singleton.mp hf]; exact hk

theorem allP_addDep {P : F → Prop} {m : DepMap F} {file dep : F}
    (hm : ∀ f ∈ keysOf m, P f) (hfile : P file) :
    ∀ f ∈ keysOf (addDep m file dep), P f :=
  allP_mapSet hm hfile

/-- The resolution loop keeps all keys inside a closed class and reports only
errors that one of the collaborators produced on a file of the class. -/
theorem processImports_closed {env : Env F S E} {P : F → Prop}
    {recur : DepMap F → F → BuildRes F E} {file : F} {L : List S}
    (hrec : ∀ m f, (∀ k ∈ keysOf m, P k) → P f →
      (∀ m', recur m f = .ok m' → ∀ k ∈ keysOf m', P k) ∧
      (∀ e, recur m f = .err e → ErrFrom env P e))
    (hfile : P file) (hL : env.getImports file = .ok L) :
    ∀ (imps : List S) (m : DepMap F),
      (∀ s ∈ imps, s ∈ L) →
      (∀ k ∈ keysOf m, P k) →
      (∀ s ∈ imps, ∀ d, env.resolveImport file s = .ok d → P d) →
      (∀ m', processImports env recur m file imps = .ok m' →
        ∀ k ∈ keysOf m', P k) ∧
      (∀ e, processImports env recur m file imps = .err e →
        ErrFrom env P e) := by
  intro imps
  induction imps with
  | nil =>
    intro m _ hm _
    refine ⟨fun m' h => ?_, fun e h => ?_⟩
    · rw [processImports_nil] at h; cases h; exact hm
    · rw [processImports_nil] at h; exact BuildRes.noConfusion h
  | cons imp rest ih =>
    intro m himpsL hm hcl
    have himpsLrest : ∀ s ∈ rest, s ∈ L :=
      fun s hs => himpsL s (List.mem_cons_of_mem _ hs)
    have hclrest : ∀ s ∈ rest, ∀ d, env.resolveImport file s = .ok d → P d :=
      fun s hs => hcl s (List.mem_cons_of_mem _ hs)
    constructor
    · intro m' h
      rw [processImports_cons] at h
      cases hr : env.resolveImport file imp with
      | error e =>
        simp only [hr] at h
        exact BuildRes.noConfusion h
      | ok dep =>
        simp only [hr] at h
        have hPdep : P dep := hcl imp (List.mem_cons_self _ _) dep hr
        have hm1 : ∀ k ∈ keysOf (addDep m file dep), P k := allP_addDep hm hfile
        by_cases hhas : mapHas (addDep m file dep) dep = true
        · rw [if_pos hhas] at h
          exact (ih _ himpsLrest hm1 hclrest).1 m' h
        · rw [if_neg hhas] at h
          cases hres : recur (addDep m file dep) dep with
          | ok g2 =>
            simp only [hres] at h
            have hm2 := (hrec _ _ hm1 hPdep).1 g2 hres
            exact (ih _ himpsLrest hm2 hclrest).1 m' h
          | err e =>
            simp only [hres] at h
            exact BuildRes.noConfusion h
          | fuelOut =>
            simp only [hres] at h
            exact BuildRes.noConfusion h
    · intro e h
      rw [processImports_cons] at h
      cases hr : env.resolveImport file imp with
      | error e' =>
        simp only [hr] at h
        cases h
        exact ⟨file, hfile, Or.inr
          ⟨L, imp, hL, himpsL imp (List.mem_cons_self _ _), hr⟩⟩
      | ok dep =>
        simp only [hr] at h
        have hPdep : P dep := hcl imp (List.mem_cons_self _ _) dep hr
        have hm1 : ∀ k ∈ keysOf (addDep m file dep), P k := allP_addDep hm hfile
        by_cases hhas : mapHas (addDep m file dep) dep = true
        · rw [if_pos hhas] at h
          exact (ih _ himpsLrest hm1 hclrest).2 e h
        · rw [if_neg hhas] at h
          cases hres : recur (addDep m file dep) dep with
          | ok g2 =>
            simp only [hres] at h
            have hm2 := (hrec _ _ hm1 hPdep).1 g2 hres
            exact (ih _ himpsLrest hm2 hclrest).2 e h
          | err e' =>
            simp only [hres] at h
            cases h
            exact (hrec _ _ hm1 hPdep).2 e hres
          | fuelOut =>
            simp only [hres] at h
            exact BuildRes.noConfusion h

/-- A whole visit keeps all keys inside a closed class and reports only
errors produced on files of the class. -/
theorem addDependenciesFrom_closed {env : Env F S E} {P : F → Prop}
    (hclosed : ClosedUnder env P) :
    ∀ (fuel : Nat) (m : DepMap F) (file : F),
      (∀ k ∈ keysOf m, P k) → P file →
      (∀ m', addDependenciesFrom env fuel m file = .ok m' →
        ∀ k ∈ keysOf m', P k) ∧
      (∀ e, addDependenciesFrom env fuel m file = .err e →
        ErrFrom env P e) := by
  intro fuel
  induction fuel with
  | zero =>
    intro m file _ _
    exact ⟨fun m' h => BuildRes.noConfusion h, fun e h => BuildRes.noConfusion h⟩
  | succ fuel ih =>
    intro m file hm hfile
    have hm1 : ∀ k ∈ keysOf (mapSet m file []), P k := allP_mapSet hm hfile
    constructor
    · intro m' h
      rw [addDependenciesFrom_succ] at h
      cases hi : env.getImports file with
      | error e =>
        simp only [hi] at h
        exact BuildRes.noConfusion h
      | ok imports =>
        simp only [hi] at h
        exact (processImports_closed (fun m f hmk hPf => ih m f hmk hPf)
          hfile hi imports _ (fun s hs => hs) hm1
          (hclosed file hfile imports hi)).1 m' h
    · intro e h
      rw [addDependenciesFrom_succ] at h
      cases hi : env.getImports file with
      | error e' =>
        simp only [hi] at h
        cases h
        exact ⟨file, hfile, Or.inl hi⟩
      | ok imports =>
        simp only [hi] at h
        exact (processImports_closed (fun m f hmk hPf => ih m f hmk hPf)
          hfile hi imports _ (fun s hs => hs) hm1
          (hclosed file hfile imports hi)).2 e h

/-- The entry-point loop keeps all keys inside a closed class and reports
only errors produced on files of the class. -/
theorem buildLoop_closed {env : Env F S E} {P : F → Prop} {fuel : Nat}
    (hclosed : ClosedUnder env P) :
    ∀ (eps : List F) (m : DepMap F),
      (∀ k ∈ keysOf m, P k) → (∀ ep ∈ eps, P ep) →
      (∀ m', buildLoop env fuel m eps = .ok m' → ∀ k ∈ keysOf m', P k) ∧
      (∀ e, buildLoop env fuel m eps = .err e → ErrFrom env P e) := by
  intro eps
  induction eps with
  | nil =>
    intro m hm _
    refine ⟨fun m' h => ?_, fun e h => ?_⟩
    · rw [buildLoop_nil] at h; cases h; exact hm
    · rw [buildLoop_nil] at h; exact BuildRes.noConfusion h
  | cons ep rest ih =>
    intro m hm heps
    have hep : P ep := heps ep (List.mem_cons_self _ _)
    have hrest : ∀ e ∈ rest, P e := fun e he => heps e (List.mem_cons_of_mem _ he)
    constructor
    · intro m' h
      rw [buildLoop_cons] at h
      by_cases hhas : mapHas m ep = true
      · rw [if_pos hhas] at h
        exact (ih _ hm hrest).1 m' h
      · rw [if_neg hhas] at h
        cases hres : addDependenciesFrom env fuel m ep with
        | ok g1 =>
          simp only [hres] at h
          have hm1 := (addDependenciesFrom_closed hclosed fuel m ep hm hep).1 g1 hres
          exact (ih _ hm1 hrest).1 m' h
        | err e =>
          simp only [hres] at h
          exact BuildRes.noConfusion h
        | fuelOut =>
          simp only [hres] at h
          exact BuildRes.noConfusion h
    · intro e h
      rw [buildLoop_cons] at h
      by_cases hhas : mapHas m ep = true
      · rw [if_pos hhas] at h
        exact (ih _ hm hrest).2 e h
      · rw [if_neg hhas] at h
        cases hres : addDependenciesFrom env fuel m ep with
        | ok g1 =>
          simp only [hres] at h
          have hm1 := (addDependenciesFrom_closed hclosed fuel m ep hm hep).1 g1 hres
          exact (ih _ hm1 hrest).2 e h
        | err e' =>
          simp only [hres] at h
          cases h
          exact (addDependenciesFrom_closed hclosed fuel m ep hm hep).2 e hres
        | fuelOut =>
          simp only [hres] at h
          exact BuildRes.noConfusion h

end ClosedUniverse

section Termination

variable [DecidableEq F]

theorem unadmitted_anti {U : Finset F} {m m' : DepMap F}
    (h : keysOf m <+: keysOf m') : unadmitted U m' ≤ unadmitted U m := by
  apply Finset.card_le_card
  intro a ha
  rw [Finset.mem_filter] at ha ⊢
  exact ⟨ha.1, fun hm => ha.2 (h.subset hm)⟩

theorem unadmitted_pos {U : Finset F} {m : DepMap F} {file : F}
    (hU : file ∈ U) (hfresh : mapHas m file = false) :
    0 < unadmitted U m := by
  apply Finset.card_pos.mpr
  exact ⟨file, Finset.mem_filter.mpr ⟨hU, mapHas_eq_false_iff.mp hfresh⟩⟩

theorem unadmitted_mapSet_fresh {U : Finset F} {m : DepMap F} {file : F}
    {v : List F} (hU : file ∈ U) (hfresh : mapHas m file = false) :
    unadmitted U (mapSet m file v) + 1 ≤ unadmitted U m := by
  have hkeys : keysOf (mapSet m file v) = keysOf m ++ [file] :=
    keysOf_mapSet_of_not_has hfresh
  have hset : U.filter (fun u => u ∉ keysOf (mapSet m file v)) =
      (U.filter fun u => u ∉ keysOf m).erase file := by
    ext a
    rw [Finset.mem_erase, Finset.mem_filter, Finset.mem_filter, hkeys]
    constructor
    · rintro ⟨ha, hnm⟩
      rw [List.mem_append, List.mem_singleton] at hnm
      push_neg at hnm
      exact ⟨hnm.2, ha, hnm.1⟩
    · rintro ⟨hne, ha, hnm⟩
      refine ⟨ha, ?_⟩
      rw [List.mem_append, List.mem_singleton]
      push_neg
      exact ⟨hnm, hne⟩
  have hpos : 0 < (U.filter fun u => u ∉ keysOf m).card :=
    unadmitted_pos hU hfresh
  simp only [unadmitted]
  rw [hset, Finset.card_erase_of_mem
    (Finset.mem_filter.mpr ⟨hU, mapHas_eq_false_iff.mp hfresh⟩)]
  omega

/-- With enough fuel for the remaining unregistered part of a closed finite
universe, the resolution loop never runs out of fuel. -/
theorem processImports_term {env : Env F S E} {U : Finset F} {fuel : Nat}
    {recur : DepMap F → F → BuildRes F E} {file : F}
    (hrec : ∀ m f, f ∈ U → mapHas m f = false → unadmitted U m ≤ fuel →
      recur m f ≠ .fuelOut)
    (hrecmono : ∀ m f m', mapHas m f = false → recur m f = .ok m' →
      keysOf m <+: keysOf m') :
    ∀ (imps : List S) (m : DepMap F),
      (∀ s ∈ imps, ∀ d, env.resolveImport file s = .ok d → d ∈ U) →
      unadmitted U m ≤ fuel →
      processImports env recur m file imps ≠ .fuelOut := by
  intro imps
  induction imps with
  | nil =>
    intro m _ _ h
    rw [processImports_nil] at h
    exact BuildRes.noConfusion h
  | cons imp rest ih =>
    intro m hcl hcount h
    rw [processImports_cons] at h
    cases hr : env.resolveImport file imp with
    | error e =>
      simp only [hr] at h
      exact BuildRes.noConfusion h
    | ok dep =>
      simp only [hr] at h
      have hclrest : ∀ s ∈ rest, ∀ d, env.resolveImport file s = .ok d → d ∈ U :=
        fun s hs => hcl s (List.mem_cons_of_mem _ hs)
      have hcount1 : unadmitted U (addDep m file dep) ≤ fuel :=
        le_trans (unadmitted_anti keys_prefix_addDep) hcount
      by_cases hhas : mapHas (addDep m file dep) dep = true
      · rw [if_pos hhas] at h
        exact ih _ hclrest hcount1 h
      · rw [if_neg hhas] at h
        rw [Bool.not_eq_true] at hhas
        have hdepU : dep ∈ U := hcl imp (List.mem_cons_self _ _) dep hr
        cases hres : recur (addDep m file dep) dep with
        | ok g2 =>
          simp only [hres] at h
          have hcount2 : unadmitted U g2 ≤ fuel :=
            le_trans (unadmitted_anti (hrecmono _ _ _ hhas hres)) hcount1
          exact ih _ hclrest hcount2 h
        | err e =>
          simp only [hres] at h
          exact BuildRes.noConfusion h
        | fuelOut =>
          exact hrec _ _ hdepU hhas hcount1 hres

/-- With fuel at least the number of unregistered universe files, a visit of
a universe file never runs out of fuel, whatever cycles the import relation
has. -/
theorem addDependenciesFrom_term {env : Env F S E} {U : Finset F}
    (hclosed : ClosedUnder env (fun f => f ∈ U)) :
    ∀ (fuel : Nat) (m : DepMap F) (file : F), file ∈ U →
      mapHas m file = false → unadmitted U m ≤ fuel →
      addDependenciesFrom env fuel m file ≠ .fuelOut := by
  intro fuel
  induction fuel with
  | zero =>
    intro m file hU hfresh hcount
    have := unadmitted_pos hU hfresh
    omega
  | succ fuel ih =>
    intro m file hU hfresh hcount h
    rw [addDependenciesFrom_succ] at h
    cases hi : env.getImports file with
    | error e =>
      simp only [hi] at h
      exact BuildRes.noConfusion h
    | ok imports =>
      simp only [hi] at h
      have hcount1 : unadmitted U (mapSet m file []) ≤ fuel := by
        have := unadmitted_mapSet_fresh (v := []) hU hfresh
        omega
      exact processImports_term (fun m f hfU hf hc => ih m f hfU hf hc)
        (fun m f m' hf hok => (addDependenciesFrom_mono fuel m f m' hf hok).1)
        imports _ (hclosed file hU imports hi) hcount1 h

/-- With fuel at least the number of unregistered universe files, the
entry-point loop never runs out of fuel. -/
theorem buildLoop_term {env : Env F S E} {U : Finset F} {fuel : Nat}
    (hclosed : ClosedUnder env (fun f => f ∈ U)) :
    ∀ (eps : List F) (m : DepMap F), (∀ ep ∈ eps, ep ∈ U) →
      unadmitted U m ≤ fuel → buildLoop env fuel m eps ≠ .fuelOut := by
  intro eps
  induction eps with
  | nil =>
    intro m _ _ h
    rw [buildLoop_nil] at h
    exact BuildRes.noConfusion h
  | cons ep rest ih =>
    intro m heps hcount h
    rw [buildLoop_cons] at h
    by_cases hhas : mapHas m ep = true
    · rw [if_pos hhas] at h
      exact ih _ (fun e he => heps e (List.mem_cons_of_mem _ he)) hcount h
    · rw [if_neg hhas] at h
      rw [Bool.not_eq_true] at hhas
      cases hres : addDependenciesFrom env fuel m ep with
      | ok g1 =>
        simp only [hres] at h
        have hcount1 : unadmitted U g1 ≤ fuel :=
          le_trans (unadmitted_anti (addDependenciesFrom_mono fuel m ep g1 hhas hres).1)
            hcount
        exact ih _ (fun e he => heps e (List.mem_cons_of_mem _ he)) hcount1 h
      | err e =>
        simp only [hres] at h
        exact BuildRes.noConfusion h
      | fuelOut =>
        exact addDependenciesFrom_term hclosed fuel m ep
          (heps ep (List.mem_cons_self _ _)) hhas hcount hres

theorem unadmitted_nil_map {U : Finset F} :
    unadmitted U ([] : DepMap F) = U.card := by
  rw [unadmitted]
  congr 1
  apply Finset.filter_true_of_mem
  intro a _
  simp [keysOf]

end Termination

section Resolution

variable [DecidableEq F]

theorem depsOf_addDep_ne {m : DepMap F} {file dep k : F} (h : k ≠ file) :
    depsOf (addDep m file dep) k = depsOf m k :=
  depsOf_mapSet_ne h

theorem FullyRes_mono {env : Env F S E} {m m' : DepMap F} {f : F}
    (hf : f ∈ keysOf m) (hg : Growth m m') (h : FullyRes env m f) :
    FullyRes env m' f := by
  obtain ⟨L, hL, hres⟩ := h
  refine ⟨L, hL, fun s hs => ?_⟩
  obtain ⟨d, hd1, hd2⟩ := hres s hs
  exact ⟨d, hd1, hg.mem_depsOf hf hd2⟩

/-- Master invariant of the resolution loop.  `pend` collects the files whose
visits are still on the call stack; every key is either the current file,
pending, or fully resolved, recorded dependencies are registered and sound,
and the specifiers processed so far (`done`) have their resolutions recorded.
-/
theorem processImports_resolved {env : Env F S E}
    {recur : DepMap F → F → BuildRes F E} {file : F}
    (hrec : ∀ (pend : F → Prop) (m : DepMap F) (f : F) (m' : DepMap F),
      mapHas m f = false →
      (∀ k ∈ keysOf m, pend k ∨ FullyRes env m k) →
      DepsRegisteredExcept m f → SoundAll env m →
      recur m f = .ok m' →
      (∀ k ∈ keysOf m', pend k ∨ FullyRes env m' k) ∧ FullyRes env m' f ∧
        DepsRegistered m' ∧ SoundAll env m')
    (hrecmono : ∀ m f m', mapHas m f = false → recur m f = .ok m' →
      (keysOf m <+: keysOf m') ∧ f ∈ keysOf m' ∧ Growth m m') :
    ∀ (imps : List S) (pend : F → Prop) (L done : List S) (m m' : DepMap F),
      file ∈ keysOf m →
      env.getImports file = .ok L →
      L = done ++ imps →
      (∀ s ∈ done, ∃ d, env.resolveImport file s = .ok d ∧ d ∈ depsOf m file) →
      (∀ f ∈ keysOf m, f = file ∨ pend f ∨ FullyRes env m f) →
      DepsRegistered m →
      SoundAll env m →
      processImports env recur m file imps = .ok m' →
      (∀ f ∈ keysOf m', f = file ∨ pend f ∨ FullyRes env m' f) ∧
        FullyRes env m' file ∧ DepsRegistered m' ∧ SoundAll env m' := by
  intro imps
  induction imps with
  | nil =>
    intro pend L done m m' hfile hL hsplit hdone hinv hreg hsound h
    rw [processImports_nil] at h
    cases h
    rw [List.append_nil] at hsplit
    subst hsplit
    exact ⟨hinv, ⟨L, hL, hdone⟩, hreg, hsound⟩
  | cons imp rest ih =>
    intro pend L done m m' hfile hL hsplit hdone hinv hreg hsound h
    rw [processImports_cons] at h
    cases hr : env.resolveImport file imp with
    | error e =>
      simp only [hr] at h
      exact BuildRes.noConfusion h
    | ok dep =>
      simp only [hr] at h
      have himpL : imp ∈ L := by
        rw [hsplit]
        exact List.mem_append_right _ (List.mem_cons_self _ _)
      have hkeys1 : keysOf (addDep m file dep) = keysOf m :=
        keysOf_addDep_of_mem hfile
      have hfile1 : file ∈ keysOf (addDep m file dep) := by
        rw [hkeys1]; exact hfile
      have hdone1 : ∀ s ∈ done ++ [imp],
          ∃ d, env.resolveImport file s = .ok d ∧
            d ∈ depsOf (addDep m file dep) file := by
        intro s hs
        rcases List.mem_append.mp hs with hs | hs
        · obtain ⟨d, hd1, hd2⟩ := hdone s hs
          exact ⟨d, hd1, by rw [depsOf_addDep_self]; exact mem_setAdd.mpr (Or.inl hd2)⟩
        · rw [List.mem_singleton.mp hs]
          exact ⟨dep, hr, by rw [depsOf_addDep_self]; exact self_mem_setAdd⟩
      have hsplit1 : L = (done ++ [imp]) ++ rest := by
        rw [hsplit, List.append_assoc, List.singleton_append]
      have hinv1 : ∀ f ∈ keysOf (addDep m file dep),
          f = file ∨ pend f ∨ FullyRes env (addDep m file dep) f := by
        intro f hf
        rw [hkeys1] at hf
        rcases hinv f hf with hc | hc | hc
        · exact Or.inl hc
        · exact Or.inr (Or.inl hc)
        · exact Or.inr (Or.inr (FullyRes_mono hf growth_addDep hc))
      have hsound1 : SoundAll env (addDep m file dep) := by
        intro f hf d hd
        rw [hkeys1] at hf
        by_cases hffile : f = file
        · subst hffile
          rw [depsOf_addDep_self] at hd
          rcases mem_setAdd.mp hd with hd | hd
          · exact hsound f hf d hd
          · subst hd
            exact ⟨L, imp, hL, himpL, hr⟩
        · rw [depsOf_addDep_ne hffile] at hd
          exact hsound f hf d hd
      by_cases hhas : mapHas (addDep m file dep) dep = true
      · rw [if_pos hhas] at h
        have hreg1 : DepsRegistered (addDep m file dep) := by
          intro f hf d hd
          by_cases hffile : f = file
          · subst hffile
            rw [depsOf_addDep_self] at hd
            rcases mem_setAdd.mp hd with hd | hd
            · rw [hkeys1]
              rw [hkeys1] at hf
              exact hreg f hf d hd
            · subst hd
              exact mapHas_iff.mp hhas
          · rw [depsOf_addDep_ne hffile] at hd
            rw [hkeys1] at hf ⊢
            exact hreg f hf d hd
        exact ih pend L (done ++ [imp]) _ m' hfile1 hL hsplit1 hdone1 hinv1
          hreg1 hsound1 h
      · rw [if_neg hhas] at h
        rw [Bool.not_eq_true] at hhas
        cases hres : recur (addDep m file dep) dep with
        | ok g2 =>
          simp only [hres] at h
          have hregx : DepsRegisteredExcept (addDep m file dep) dep := by
            intro f hf d hd
            by_cases hffile : f = file
            · subst hffile
              rw [depsOf_addDep_self] at hd
              rcases mem_setAdd.mp hd with hd | hd
              · rw [hkeys1]
                rw [hkeys1] at hf
                exact Or.inl (hreg f hf d hd)
              · exact Or.inr hd
            · rw [depsOf_addDep_ne hffile] at hd
              rw [hkeys1] at hf
              refine Or.inl ?_
              rw [hkeys1]
              exact hreg f hf d hd
          have hinvx : ∀ k ∈ keysOf (addDep m file dep),
              (fun f => f = file ∨ pend f) k ∨ FullyRes env (addDep m file dep) k := by
            intro k hk
            rcases hinv1 k hk with hc | hc | hc
            · exact Or.inl (Or.inl hc)
            · exact Or.inl (Or.inr hc)
            · exact Or.inr hc
          obtain ⟨hinv2, hfull2, hreg2, hsound2⟩ :=
            hrec (fun f => f = file ∨ pend f) _ dep g2 hhas hinvx hregx hsound1 hres
          obtain ⟨hp2, hdep2, hg2⟩ := hrecmono _ dep g2 hhas hres
          have hfile2 : file ∈ keysOf g2 := hp2.subset hfile1
          have hdone2 : ∀ s ∈ done ++ [imp],
              ∃ d, env.resolveImport file s = .ok d ∧ d ∈ depsOf g2 file := by
            intro s hs
            obtain ⟨d, hd1, hd2⟩ := hdone1 s hs
            exact ⟨d, hd1, hg2.mem_depsOf hfile1 hd2⟩
          have hinv2x : ∀ f ∈ keysOf g2, f = file ∨ pend f ∨ FullyRes env g2 f := by
            intro f hf
            rcases hinv2 f hf with (hc | hc) | hc
            · exact Or.inl hc
            · exact Or.inr (Or.inl hc)
            · exact Or.inr (Or.inr hc)
          exact ih pend L (done ++ [imp]) g2 m' hfile2 hL hsplit1 hdone2 hinv2x
            hreg2 hsound2 h
        | err e =>
          simp only [hres] at h
          exact BuildRes.noConfusion h
        | fuelOut =>
          simp only [hres] at h
          exact BuildRes.noConfusion h

/-- Master invariant of a whole visit: afterwards the visited file is fully
resolved, and every key is pending or fully resolved. -/
theorem addDependenciesFrom_resolved {env : Env F S E} :
    ∀ (fuel : Nat) (pend : F → Prop) (m : DepMap F) (file : F) (m' : DepMap F),
      mapHas m file = false →
      (∀ k ∈ keysOf m, pend k ∨ FullyRes env m k) →
      DepsRegisteredExcept m file → SoundAll env m →
      addDependenciesFrom env fuel m file = .ok m' →
      (∀ k ∈ keysOf m', pend k ∨ FullyRes env m' k) ∧ FullyRes env m' file ∧
        DepsRegistered m' ∧ SoundAll env m' := by
  intro fuel
  induction fuel with
  | zero =>
    intro pend m file m' _ _ _ _ h
    exact BuildRes.noConfusion h
  | succ fuel ih =>
    intro pend m file m' hfresh hinv hregx hsound h
    rw [addDependenciesFrom_succ] at h
    cases hi : env.getImports file with
    | error e =>
      simp only [hi] at h
      exact BuildRes.noConfusion h
    | ok imports =>
      simp only [hi] at h
      have hkeys1 : keysOf (mapSet m file []) = keysOf m ++ [file] :=
        keysOf_mapSet_of_not_has hfresh
      have hfilemem : file ∈ keysOf (mapSet m file []) := by
        rw [hkeys1]
        exact List.mem_append_right _ (List.mem_singleton.mpr rfl)
      have hfilenot : file ∉ keysOf m := mapHas_eq_false_iff.mp hfresh
      have hinv1 : ∀ f ∈ keysOf (mapSet m file []),
          f = file ∨ pend f ∨ FullyRes env (mapSet m file []) f := by
        intro f hf
        rw [hkeys1, List.mem_append, List.mem_singleton] at hf
        rcases hf with hf | hf
        · rcases hinv f hf with hc | hc
          · exact Or.inr (Or.inl hc)
          · exact Or.inr (Or.inr
              (FullyRes_mono hf (growth_mapSet_fresh hfresh) hc))
        · exact Or.inl hf
      have hreg1 : DepsRegistered (mapSet m file []) := by
        intro f hf d hd
        rw [hkeys1, List.mem_append, List.mem_singleton] at hf
        rcases hf with hf | hf
        · have hffile : f ≠ file := fun hc => hfilenot (hc ▸ hf)
          rw [depsOf_mapSet_ne hffile] at hd
          rcases hregx f hf d hd with hc | hc
          · rw [hkeys1]
            exact List.mem_append_left _ hc
          · rw [hkeys1, hc]
            exact List.mem_append_right _ (List.mem_singleton.mpr rfl)
        · subst hf
          rw [depsOf_mapSet_self] at hd
          cases hd
      have hsound1 : SoundAll env (mapSet m file []) := by
        intro f hf d hd
        rw [hkeys1, List.mem_append, List.mem_singleton] at hf
        rcases hf with hf | hf
        · have hffile : f ≠ file := fun hc => hfilenot (hc ▸ hf)
          rw [depsOf_mapSet_ne hffile] at hd
          exact hsound f hf d hd
        · subst hf
          rw [depsOf_mapSet_self] at hd
          cases hd
      obtain ⟨hinv2, hfull2, hreg2, hsound2⟩ :=
        processImports_resolved
          (fun pnd m f m' hfr hin hrg hsd hok => ih pnd m f m' hfr hin hrg hsd hok)
          (fun m f m' hfr hok => addDependenciesFrom_mono fuel m f m' hfr hok)
          imports pend imports [] _ m' hfilemem hi rfl
          (fun s hs => absurd hs (List.not_mem_nil s)) hinv1 hreg1 hsound1 h
      refine ⟨fun k hk => ?_, hfull2, hreg2, hsound2⟩
      rcases hinv2 k hk with hc | hc | hc
      · exact Or.inr (hc ▸ hfull2)
      · exact Or.inl hc
      · exact Or.inr hc

/-- Master invariant of the entry-point loop starting from a state in which
every key is fully resolved. -/
theorem buildLoop_resolved {env : Env F S E} {fuel : Nat} :
    ∀ (eps : List F) (m m' : DepMap F),
      (∀ k ∈ keysOf m, FullyRes env m k) →
      DepsRegistered m → SoundAll env m →
      buildLoop env fuel m eps = .ok m' →
      (∀ k ∈ keysOf m', FullyRes env m' k) ∧ DepsRegistered m' ∧
        SoundAll env m' := by
  intro eps
  induction eps with
  | nil =>
    intro m m' hfull hreg hsound h
    rw [buildLoop_nil] at h
    cases h
    exact ⟨hfull, hreg, hsound⟩
  | cons ep rest ih =>
    intro m m' hfull hreg hsound h
    rw [buildLoop_cons] at h
    by_cases hhas : mapHas m ep = true
    · rw [if_pos hhas] at h
      exact ih _ _ hfull hreg hsound h
    · rw [if_neg hhas] at h
      rw [Bool.not_eq_true] at hhas
      cases hres : addDependenciesFrom env fuel m ep with
      | ok g1 =>
        simp only [hres] at h
        obtain ⟨hinv1, _, hreg1, hsound1⟩ :=
          addDependenciesFrom_resolved fuel (fun _ => False) m ep g1 hhas
            (fun k hk => Or.inr (hfull k hk))
            (fun f hf d hd => Or.inl (hreg f hf d hd)) hsound hres
        exact ih g1 m'
          (fun k hk => (hinv1 k hk).resolve_left (fun hc => hc.elim))
          hreg1 hsound1 h
      | err e =>
        simp only [hres] at h
        exact BuildRes.noConfusion h
      | fuelOut =>
        simp only [hres] at h
        exact BuildRes.noConfusion h

/-- Every entry point of a successful loop run ends up registered. -/
theorem buildLoop_entries {env : Env F S E} {fuel : Nat} :
    ∀ (eps : List F) (m m' : DepMap F),
      buildLoop env fuel m eps = .ok m' → ∀ ep ∈ eps, ep ∈ keysOf m' := by
  intro eps
  induction eps with
  | nil =>
    intro m m' _ ep hep
    exact absurd hep (List.not_mem_nil ep)
  | cons ep0 rest ih =>
    intro m m' h ep hep
    rw [buildLoop_cons] at h
    by_cases hhas : mapHas m ep0 = true
    · rw [if_pos hhas] at h
      rcases List.mem_cons.mp hep with hc | hc
      · subst hc
        exact (buildLoop_mono _ _ _ h).1.subset (mapHas_iff.mp hhas)
      · exact ih _ _ h ep hc
    · rw [if_neg hhas] at h
      rw [Bool.not_eq_true] at hhas
      cases hres : addDependenciesFrom env fuel m ep0 with
      | ok g1 =>
        simp only [hres] at h
        rcases List.mem_cons.mp hep with hc | hc
        · subst hc
          exact (buildLoop_mono _ _ _ h).1.subset
            (addDependenciesFrom_mono fuel m ep g1 hhas hres).2.1
        · exact ih _ _ h ep hc
      | err e =>
        simp only [hres] at h
        exact BuildRes.noConfusion h
      | fuelOut =>
        simp only [hres] at h
        exact BuildRes.noConfusion h

end Resolution

section GraphLevel

variable [DecidableEq F]

theorem create_ok_elim {env : Env F S E} {fuel : Nat} {eps : List F}
    {g : DependencyGraph F}
    (h : createFromMultipleEntryPoints env fuel eps = .ok g) :
    buildLoop env fuel [] eps = .ok g.dependenciesPerFile ∧
      g.entryPoints = eps := by
  unfold createFromMultipleEntryPoints at h
  cases hb : buildLoop env fuel [] eps with
  | ok m =>
    simp only [hb] at h
    injection h with h
    subst h
    exact ⟨rfl, rfl⟩
  | err e =>
    simp only [hb] at h
    exact CreateRes.noConfusion h
  | fuelOut =>
    simp only [hb] at h
    exact CreateRes.noConfusion h

theorem create_ok_intro {env : Env F S E} {fuel : Nat} {eps : List F}
    {m : DepMap F} (hb : buildLoop env fuel [] eps = .ok m) :
    createFromMultipleEntryPoints env fuel eps = .ok ⟨m, eps⟩ := by
  unfold createFromMultipleEntryPoints
  rw [hb]

theorem create_err_iff {env : Env F S E} {fuel : Nat} {eps : List F} {e : E} :
    createFromMultipleEntryPoints env fuel eps = .err e ↔
      buildLoop env fuel [] eps = .err e := by
  unfold createFromMultipleEntryPoints
  cases hb : buildLoop env fuel [] eps <;> simp

theorem create_fuelOut_iff {env : Env F S E} {fuel : Nat} {eps : List F} :
    createFromMultipleEntryPoints env fuel eps = .fuelOut ↔
      buildLoop env fuel [] eps = .fuelOut := by
  unfold createFromMultipleEntryPoints
  cases hb : buildLoop env fuel [] eps <;> simp

/-- Reachability is a closed class of files. -/
theorem closedUnder_reaches {env : Env F S E} {eps : List F} :
    ClosedUnder env (Reaches env eps) :=
  fun _ hf L hL s hs d hd => hf.step hL hs hd

/-- Every reachable file ends up registered after a successful loop run from
the empty map. -/
theorem reaches_mem_keys {env : Env F S E} {fuel : Nat} {eps : List F}
    {m' : DepMap F} (h : buildLoop env fuel [] eps = .ok m') :
    ∀ f, Reaches env eps f → f ∈ keysOf m' := by
  obtain ⟨hfull, hreg, _⟩ := buildLoop_resolved eps [] m'
    (fun k hk => absurd hk (List.not_mem_nil k))
    (fun k hk => absurd hk (List.not_mem_nil k))
    (fun k hk => absurd hk (List.not_mem_nil k)) h
  intro f hf
  induction hf with
  | entry hmem => exact buildLoop_entries eps [] m' h _ hmem
  | step hreach hL hs hd ihf =>
    rename_i f' L s d
    obtain ⟨L', hL', hres⟩ := hfull f' ihf
    rw [hL] at hL'
    injection hL' with hLL
    subst hLL
    obtain ⟨d', hd', hdeps⟩ := hres s hs
    rw [hd] at hd'
    injection hd' with hdd
    subst hdd
    exact hreg f' ihf d hdeps

end GraphLevel

section ClaimsUntraced

variable [DecidableEq F]

/-- C3: when the build succeeds, every file reachable from the entry points
through a finite chain of successful extractions and resolutions is a key of
the final graph, and every successfully resolved direct import of a
registered file is an element of its dependency set. -/
theorem C3_completeness {env : Env F S E} {fuel : Nat} {eps : List F}
    {g : DependencyGraph F}
    (h : createFromMultipleEntryPoints env fuel eps = .ok g) :
    (∀ f, Reaches env eps f → f ∈ getResolvedFiles g) ∧
    (∀ f ∈ getResolvedFiles g, ∀ L s d, env.getImports f = .ok L → s ∈ L →
      env.resolveImport f s = .ok d → d ∈ (dependenciesOf g f).getD []) := by
  obtain ⟨hb, _⟩ := create_ok_elim h
  obtain ⟨hfull, hreg, _⟩ := buildLoop_resolved eps [] g.dependenciesPerFile
    (fun k hk => absurd hk (List.not_mem_nil k))
    (fun k hk => absurd hk (List.not_mem_nil k))
    (fun k hk => absurd hk (List.not_mem_nil k)) hb
  constructor
  · exact fun f hf => reaches_mem_keys hb f hf
  · intro f hf L s d hL hs hd
    obtain ⟨L', hL', hres⟩ := hfull f hf
    rw [hL] at hL'
    injection hL' with hLL
    subst hLL
    obtain ⟨d', hd', hdeps⟩ := hres s hs
    rw [hd] at hd'
    injection hd' with hdd
    subst hdd
    exact hdeps

/-- C3 witness: the straight-line scenario with entry point `0`, where `0`
imports `1` and `1` imports nothing, builds the graph
`0 maps-to [1], 1 maps-to []`. -/
theorem C3_witness :
    (∀ f, Reaches envLine [0] f →
      f ∈ getResolvedFiles ⟨[(0, [1]), (1, [])], [0]⟩) ∧
    (∀ f ∈ getResolvedFiles
        (⟨[(0, [1]), (1, [])], [0]⟩ : DependencyGraph Nat),
      ∀ L s d, envLine.getImports f = .ok L → s ∈ L →
      envLine.resolveImport f s = .ok d →
      d ∈ (dependenciesOf ⟨[(0, [1]), (1, [])], [0]⟩ f).getD []) :=
  @C3_completeness Nat Nat Unit _ envLine 2 [0] _ (by decide)

/-- C6: every entry point supplied by the caller is a key of a successfully
built graph (an entry point can only fail to appear when the whole build
fails). -/
theorem C6_entry_points_are_keys {env : Env F S E} {fuel : Nat} {eps : List F}
    {g : DependencyGraph F}
    (h : createFromMultipleEntryPoints env fuel eps = .ok g) :
    ∀ ep ∈ eps, ep ∈ getResolvedFiles g := by
  obtain ⟨hb, _⟩ := create_ok_elim h
  exact buildLoop_entries eps [] g.dependenciesPerFile hb

/-- C6 witness: both entry points of the diamond scenario are keys. -/
theorem C6_witness :
    0 ∈ getResolvedFiles (⟨[(0, [2]), (2, []), (1, [2])], [0, 1]⟩ :
      DependencyGraph Nat) ∧
    1 ∈ getResolvedFiles (⟨[(0, [2]), (2, []), (1, [2])], [0, 1]⟩ :
      DependencyGraph Nat) :=
  ⟨@C6_entry_points_are_keys Nat Nat Unit _ envDiamond 3 [0, 1] _ (by decide)
      0 (by decide),
    @C6_entry_points_are_keys Nat Nat Unit _ envDiamond 3 [0, 1] _ (by decide)
      1 (by decide)⟩

/-- C8: the dependency query of the produced graph is `undefined` (`none`)
exactly for files never registered, and yields the empty set for a
registered file whose extraction produced no specifiers. -/
theorem C8_dependenciesOf_contract :
    (∀ (g : DependencyGraph F) (f : F),
      dependenciesOf g f = none ↔ f ∉ getResolvedFiles g) ∧
    (∀ (env : Env F S E) (fuel : Nat) (eps : List F) (g : DependencyGraph F)
      (f : F), createFromMultipleEntryPoints env fuel eps = .ok g →
      f ∈ getResolvedFiles g → env.getImports f = .ok [] →
      dependenciesOf g f = some []) := by
  constructor
  · intro g f
    exact mapGet_eq_none_iff
  · intro env fuel eps g f h hf hL
    obtain ⟨hb, _⟩ := create_ok_elim h
    obtain ⟨_, _, hsound⟩ := buildLoop_resolved eps [] g.dependenciesPerFile
      (fun k hk => absurd hk (List.not_mem_nil k))
      (fun k hk => absurd hk (List.not_mem_nil k))
      (fun k hk => absurd hk (List.not_mem_nil k)) hb
    obtain ⟨l, hl⟩ := mapGet_isSome_of_mem (m := g.dependenciesPerFile) hf
    have hnil : l = [] := by
      rcases l with _ | ⟨d, l⟩
      · rfl
      · exfalso
        have hd : d ∈ depsOf g.dependenciesPerFile f := by
          rw [depsOf, hl]
          exact List.mem_cons_self _ _
        obtain ⟨L', s, hL', hs, _⟩ := hsound f hf d hd
        rw [hL] at hL'
        injection hL' with hLL
        subst hLL
        exact absurd hs (List.not_mem_nil s)
    rw [dependenciesOf, hl, hnil]

/-- C8 witness: in the built diamond graph, file `2` is registered with an
empty dependency set, and the unregistered file `7` answers `none`. -/
theorem C8_witness :
    (dependenciesOf (⟨[(0, [2]), (2, []), (1, [2])], [0, 1]⟩ :
        DependencyGraph Nat) 7 = none ↔
      (7 : Nat) ∉ getResolvedFiles
        (⟨[(0, [2]), (2, []), (1, [2])], [0, 1]⟩ : DependencyGraph Nat)) ∧
    dependenciesOf (⟨[(0, [2]), (2, []), (1, [2])], [0, 1]⟩ :
        DependencyGraph Nat) 2 = some [] :=
  ⟨(C8_dependenciesOf_contract (S := Nat) (E := Unit)).1 _ 7,
    (C8_dependenciesOf_contract).2 envDiamond 3 [0, 1] _ 2 (by decide)
      (by decide) rfl⟩

/-- C9: the build result is a function of the collaborator behaviour alone:
two environments whose extractor and resolver agree pointwise give the same
result for the same entry points (in particular two runs with the same
deterministic environment coincide). -/
theorem C9_deterministic {env₁ env₂ : Env F S E} {fuel : Nat} {eps : List F}
    (hg : env₁.getImports = env₂.getImports)
    (hr : env₁.resolveImport = env₂.resolveImport) :
    createFromMultipleEntryPoints env₁ fuel eps =
      createFromMultipleEntryPoints env₂ fuel eps := by
  obtain ⟨g1, r1⟩ := env₁
  obtain ⟨g2, r2⟩ := env₂
  simp only at hg hr
  subst hg
  subst hr
  rfl

/-- C9 witness: two runs on the cyclic two-file environment coincide. -/
theorem C9_witness :
    createFromMultipleEntryPoints envAB 2 [0] =
      createFromMultipleEntryPoints ⟨envAB.getImports, envAB.resolveImport⟩
        2 [0] :=
  C9_deterministic rfl rfl

/-- C10: `createFromEntryPoint` is definitionally the build on the singleton
entry-point sequence, so the two agree in every respect (keys, dependency
sets, stored entry points, and error or fuel behaviour). -/
theorem C10_singleton_delegation {env : Env F S E} {fuel : Nat} {e : F} :
    createFromEntryPoint env fuel e =
      createFromMultipleEntryPoints env fuel [e] := rfl

end ClaimsUntraced

section ClaimC1

/-- For every file `f` of the infinite chain part (`1 ≤ f`), a visit of `f`
in a state where no file from `f` upwards is registered exhausts any fuel:
the chain `f, f + 1, f + 2, ...` never closes. -/
theorem chain_add_pos :
    ∀ (fuel : Nat) (m : DepMap Nat) (f : Nat), 1 ≤ f →
      (∀ k, f ≤ k → k ∉ keysOf m) →
      addDependenciesFrom chainEnv fuel m f = .fuelOut := by
  intro fuel
  induction fuel with
  | zero => intro m f _ _; exact addDependenciesFrom_zero
  | succ fuel ih =>
    intro m f hf hkeys
    rw [addDependenciesFrom_succ]
    have hgi : chainEnv.getImports f = .ok [f + 1] := by
      show Except.ok (if f = 0 then [0, 1] else [f + 1]) = .ok [f + 1]
      rw [if_neg (by omega)]
    simp only [hgi]
    rw [processImports_cons]
    have hres : chainEnv.resolveImport f (f + 1) = .ok (f + 1) := rfl
    simp only [hres]
    have hfreshf : mapHas m f = false :=
      mapHas_eq_false_iff.mpr (hkeys f (le_refl f))
    have hkeys1 : keysOf (mapSet m f ([] : List Nat)) = keysOf m ++ [f] :=
      keysOf_mapSet_of_not_has hfreshf
    have hfm : f ∈ keysOf (mapSet m f ([] : List Nat)) := by
      rw [hkeys1]
      exact List.mem_append_right _ (List.mem_singleton.mpr rfl)
    have hkeysg1 :
        keysOf (addDep (mapSet m f []) f (f + 1)) = keysOf m ++ [f] := by
      rw [keysOf_addDep_of_mem hfm, hkeys1]
    have hnot : mapHas (addDep (mapSet m f []) f (f + 1)) (f + 1) = false := by
      apply mapHas_eq_false_iff.mpr
      rw [hkeysg1]
      intro hmem
      rcases List.mem_append.mp hmem with hc | hc
      · exact hkeys (f + 1) (by omega) hc
      · rw [List.mem_singleton] at hc; omega
    rw [if_neg (by simp [hnot])]
    have hrec : addDependenciesFrom chainEnv fuel
        (addDep (mapSet m f []) f (f + 1)) (f + 1) = .fuelOut := by
      apply ih _ _ (by omega)
      intro k hk
      rw [hkeysg1]
      intro hmem
      rcases List.mem_append.mp hmem with hc | hc
      · exact hkeys k (by omega) hc
      · rw [List.mem_singleton] at hc; omega
    simp only [hrec]

/-- A visit of entry point `0` of the chain environment exhausts any fuel:
after recording the self-cycle edge it descends into the infinite chain. -/
theorem chain_add_zero :
    ∀ fuel : Nat, addDependenciesFrom chainEnv fuel [] 0 = .fuelOut := by
  intro fuel
  cases fuel with
  | zero => exact addDependenciesFrom_zero
  | succ fuel =>
    rw [addDependenciesFrom_succ]
    simp only [show chainEnv.getImports 0 = .ok [0, 1] from rfl]
    rw [processImports_cons]
    simp only [show chainEnv.resolveImport 0 0 = .ok 0 from rfl]
    rw [if_pos (show mapHas
      (addDep (mapSet ([] : DepMap Nat) 0 []) 0 0) 0 = true from rfl)]
    rw [processImports_cons]
    simp only [show chainEnv.resolveImport 0 1 = .ok 1 from rfl]
    rw [if_neg (by decide :
      ¬(mapHas (addDep (addDep (mapSet ([] : DepMap Nat) 0 []) 0 0) 0 1) 1
        = true))]
    have hrec : addDependenciesFrom chainEnv fuel
        (addDep (addDep (mapSet ([] : DepMap Nat) 0 []) 0 0) 0 1) 1 =
        .fuelOut := by
      apply chain_add_pos fuel _ 1 (le_refl 1)
      intro k hk
      rw [show keysOf (addDep (addDep (mapSet ([] : DepMap Nat) 0 []) 0 0)
        0 1) = [0] from rfl]
      intro hmem
      rw [List.mem_singleton] at hmem
      omega
    simp only [hrec]

/-- C1 counterexample: the chain environment has an import cycle of length
one (file `0` imports itself through an extracted specifier that resolves
successfully back to `0`), yet the build on entry point `0` exhausts every
fuel, i.e. the JS recursion never terminates, because file `0` also reaches
the infinite fresh chain `1, 2, 3, ...`. -/
theorem C1_counterexample :
    (∃ L s, chainEnv.getImports 0 = .ok L ∧ s ∈ L ∧
      chainEnv.resolveImport 0 s = .ok 0) ∧
    ∀ fuel : Nat,
      createFromMultipleEntryPoints chainEnv fuel [0] = .fuelOut := by
  constructor
  · exact ⟨[0, 1], 0, rfl, by decide, rfl⟩
  · intro fuel
    rw [create_fuelOut_iff, buildLoop_cons]
    rw [if_neg (by decide : ¬(mapHas ([] : DepMap Nat) 0 = true))]
    simp only [chain_add_zero fuel]

/-- C1 (amended): for every resolver/extractor pair whose import relation may
contain cycles of any length (including self-imports) but whose files lie in
a finite universe closed under successful resolution and on which every
extraction and resolution succeeds, the build with fuel at least the size of
the universe terminates with a graph, and the dependency set of every
registered file consists exactly of its successfully resolved direct
imports; in particular the two-cycle `0 imports 1 imports 0` builds
`0 maps-to [1], 1 maps-to [0]`. -/
theorem C1_cycle_termination [DecidableEq F] {env : Env F S E} {U : Finset F}
    {fuel : Nat} {eps : List F}
    (hclosed : ClosedUnder env (fun f => f ∈ U))
    (heps : ∀ ep ∈ eps, ep ∈ U)
    (hok : ∀ f ∈ U, ∃ L, env.getImports f = .ok L ∧
      ∀ s ∈ L, ∃ d, env.resolveImport f s = .ok d)
    (hfuel : U.card ≤ fuel) :
    ∃ g, createFromMultipleEntryPoints env fuel eps = .ok g ∧
      ∀ f ∈ getResolvedFiles g, ∃ L, env.getImports f = .ok L ∧
        ∀ d, (d ∈ (dependenciesOf g f).getD [] ↔
          ∃ s ∈ L, env.resolveImport f s = .ok d) := by
  cases hb : buildLoop env fuel [] eps with
  | fuelOut =>
    exact absurd hb (buildLoop_term hclosed eps [] heps
      (by rw [unadmitted_nil_map]; exact hfuel))
  | err e =>
    exfalso
    obtain ⟨f, hfU, herr⟩ := (buildLoop_closed hclosed eps []
      (fun k hk => absurd hk (List.not_mem_nil k)) heps).2 e hb
    obtain ⟨L, hL, hres⟩ := hok f hfU
    rcases herr with herr | ⟨L', s, hL', hs, herr⟩
    · rw [hL] at herr
      exact Except.noConfusion herr
    · rw [hL] at hL'
      injection hL' with hLL
      subst hLL
      obtain ⟨d, hd⟩ := hres s hs
      rw [herr] at hd
      exact Except.noConfusion hd
  | ok m =>
    refine ⟨⟨m, eps⟩, create_ok_intro hb, ?_⟩
    obtain ⟨hfull, _, hsound⟩ := buildLoop_resolved eps [] m
      (fun k hk => absurd hk (List.not_mem_nil k))
      (fun k hk => absurd hk (List.not_mem_nil k))
      (fun k hk => absurd hk (List.not_mem_nil k)) hb
    intro f hf
    obtain ⟨L, hL, hres⟩ := hfull f hf
    refine ⟨L, hL, fun d => ⟨fun hd => ?_, fun hd => ?_⟩⟩
    · obtain ⟨L', s, hL', hsL, hds⟩ := hsound f hf d hd
      rw [hL] at hL'
      injection hL' with hLL
      subst hLL
      exact ⟨s, hsL, hds⟩
    · obtain ⟨s, hs, hds⟩ := hd
      obtain ⟨d', hd', hdeps⟩ := hres s hs
      rw [hds] at hd'
      injection hd' with hdd
      subst hdd
      exact hdeps

/-- C1 witness: the cyclic pair `0 imports 1 imports 0` lies in the closed
two-element universe, every call succeeds, and the build with fuel `2`
terminates with exactly the cycle edges. -/
theorem C1_witness :
    ∃ g, createFromMultipleEntryPoints envAB 2 [0] = .ok g ∧
      ∀ f ∈ getResolvedFiles g, ∃ L, envAB.getImports f = .ok L ∧
        ∀ d, (d ∈ (dependenciesOf g f).getD [] ↔
          ∃ s ∈ L, envAB.resolveImport f s = .ok d) := by
  apply C1_cycle_termination (U := ({0, 1} : Finset Nat))
  · intro f hf L hL s hs d hd
    fin_cases hf
    · rw [show envAB.getImports 0 = Except.ok [1] from rfl] at hL
      injection hL with hL
      subst hL
      rw [List.mem_singleton] at hs
      subst hs
      rw [show envAB.resolveImport 0 1 = Except.ok 1 from rfl] at hd
      injection hd with hd
      subst hd
      decide
    · rw [show envAB.getImports 1 = Except.ok [0] from rfl] at hL
      injection hL with hL
      subst hL
      rw [List.mem_singleton] at hs
      subst hs
      rw [show envAB.resolveImport 1 0 = Except.ok 0 from rfl] at hd
      injection hd with hd
      subst hd
      decide
  · intro ep hep
    rw [List.mem_singleton] at hep
    subst hep
    decide
  · intro f hf
    fin_cases hf
    · exact ⟨[1], rfl, fun s _ => ⟨s, rfl⟩⟩
    · exact ⟨[0], rfl, fun s _ => ⟨s, rfl⟩⟩
  · decide

end ClaimC1

section TraceBasics

variable [DecidableEq F]

omit [DecidableEq F] in
theorem visitsOf_append {t₁ t₂ : List (Ev F S)} :
    visitsOf (t₁ ++ t₂) = visitsOf t₁ ++ visitsOf t₂ := by
  induction t₁ with
  | nil => rfl
  | cons e t ih => cases e <;> simp [visitsOf, ih]

omit [DecidableEq F] in
theorem extractsOf_append {t₁ t₂ : List (Ev F S)} :
    extractsOf (t₁ ++ t₂) = extractsOf t₁ ++ extractsOf t₂ := by
  induction t₁ with
  | nil => rfl
  | cons e t ih => cases e <;> simp [extractsOf, ih]

theorem resolvesSrc_append {f : F} {t₁ t₂ : List (Ev F S)} :
    resolvesSrc f (t₁ ++ t₂) = resolvesSrc f t₁ ++ resolvesSrc f t₂ := by
  induction t₁ with
  | nil => rfl
  | cons e t ih =>
    cases e with
    | visit g => simp [resolvesSrc, ih]
    | extract g => simp [resolvesSrc, ih]
    | resolve g s =>
      by_cases hg : g = f <;> simp [resolvesSrc, hg, ih]

theorem resolvesSrc_cons_resolve {f g : F} {s : S} {t : List (Ev F S)} :
    resolvesSrc f (Ev.resolve g s :: t) =
      if g = f then s :: resolvesSrc f t else resolvesSrc f t := rfl

theorem resolvesSrc_eq_nil {f : F} {t : List (Ev F S)}
    (h : ∀ s, Ev.resolve f s ∉ t) : resolvesSrc f t = [] := by
  induction t with
  | nil => rfl
  | cons e t ih =>
    have ht : ∀ s, Ev.resolve f s ∉ t :=
      fun s hs => h s (List.mem_cons_of_mem _ hs)
    cases e with
    | visit g => exact ih ht
    | extract g => exact ih ht
    | resolve g s =>
      rw [resolvesSrc]
      rw [if_neg fun hg : g = f => h s (by rw [← hg]; exact List.mem_cons_self _ _)]
      exact ih ht

omit [DecidableEq F] in
theorem VisitedBefore_nil {V : List F} :
    VisitedBefore (S := S) V [] := trivial

omit [DecidableEq F] in
theorem VisitedBefore_cons_visit {V : List F} {f : F} {t : List (Ev F S)} :
    VisitedBefore V (Ev.visit f :: t) = VisitedBefore (f :: V) t := rfl

omit [DecidableEq F] in
theorem VisitedBefore_cons_extract {V : List F} {f : F} {t : List (Ev F S)} :
    VisitedBefore V (Ev.extract f :: t) = (f ∈ V ∧ VisitedBefore V t) := rfl

omit [DecidableEq F] in
theorem VisitedBefore_cons_resolve {V : List F} {f : F} {sp : S}
    {t : List (Ev F S)} :
    VisitedBefore V (Ev.resolve f sp :: t) =
      (f ∈ V ∧ VisitedBefore V t) := rfl

omit [DecidableEq F] in
theorem VisitedBefore_mono {V V' : List F} {t : List (Ev F S)}
    (hsub : ∀ x ∈ V, x ∈ V') (h : VisitedBefore V t) :
    VisitedBefore V' t := by
  induction t generalizing V V' with
  | nil => trivial
  | cons e t ih =>
    cases e with
    | visit f =>
      rw [VisitedBefore] at h ⊢
      refine ih ?_ h
      intro x hx
      rcases List.mem_cons.mp hx with hx | hx
      · exact hx ▸ List.mem_cons_self _ _
      · exact List.mem_cons_of_mem _ (hsub x hx)
    | extract f =>
      rw [VisitedBefore] at h ⊢
      exact ⟨hsub f h.1, ih hsub h.2⟩
    | resolve f s =>
      rw [VisitedBefore] at h ⊢
      exact ⟨hsub f h.1, ih hsub h.2⟩

omit [DecidableEq F] in
theorem VisitedBefore_append {V : List F} {t₁ t₂ : List (Ev F S)}
    (h₁ : VisitedBefore V t₁)
    (h₂ : VisitedBefore (visitsOf t₁ ++ V) t₂) :
    VisitedBefore V (t₁ ++ t₂) := by
  induction t₁ generalizing V with
  | nil => exact h₂
  | cons e t ih =>
    cases e with
    | visit f =>
      rw [List.cons_append, VisitedBefore]
      rw [VisitedBefore] at h₁
      refine ih h₁ (VisitedBefore_mono ?_ h₂)
      intro x hx
      rw [visitsOf] at hx
      rcases List.mem_append.mp hx with hx | hx
      · rcases List.mem_cons.mp hx with hx | hx
        · exact hx ▸ List.mem_append_right _ (List.mem_cons_self _ _)
        · exact List.mem_append_left _ hx
      · exact List.mem_append_right _ (List.mem_cons_of_mem _ hx)
    | extract f =>
      rw [List.cons_append, VisitedBefore]
      rw [VisitedBefore] at h₁
      exact ⟨h₁.1, ih h₁.2 (by rw [visitsOf] at h₂; exact h₂)⟩
    | resolve f s =>
      rw [List.cons_append, VisitedBefore]
      rw [VisitedBefore] at h₁
      exact ⟨h₁.1, ih h₁.2 (by rw [visitsOf] at h₂; exact h₂)⟩

theorem processImportsT_nil {env : Env F S E} {recur} {g : DepMap F}
    {file : F} :
    processImportsT env recur g file [] = ([], .ok g) := rfl

theorem processImportsT_cons {env : Env F S E} {recur} {g : DepMap F}
    {file : F} {imp : S} {rest : List S} :
    processImportsT env recur g file (imp :: rest) =
      match env.resolveImport file imp with
      | .error e => ([.resolve file imp], .err e)
      | .ok dependency =>
        if mapHas (addDep g file dependency) dependency then
          (.resolve file imp ::
            (processImportsT env recur (addDep g file dependency) file
              rest).1,
            (processImportsT env recur (addDep g file dependency) file
              rest).2)
        else
          match recur (addDep g file dependency) dependency with
          | (t1, .ok g2) =>
            (.resolve file imp :: t1 ++
              (processImportsT env recur g2 file rest).1,
              (processImportsT env recur g2 file rest).2)
          | (t1, .err e) => (.resolve file imp :: t1, .err e)
          | (t1, .fuelOut) => (.resolve file imp :: t1, .fuelOut) := rfl

theorem addDependenciesFromT_zero {env : Env F S E} {g : DepMap F}
    {file : F} :
    addDependenciesFromT env 0 g file = ([], .fuelOut) := rfl

theorem addDependenciesFromT_succ {env : Env F S E} {fuel : Nat}
    {g : DepMap F} {file : F} :
    addDependenciesFromT env (fuel + 1) g file =
      match env.getImports file with
      | .error e => ([.visit file, .extract file], .err e)
      | .ok imports =>
        (.visit file :: .extract file ::
          (processImportsT env (addDependenciesFromT env fuel)
            (mapSet g file []) file imports).1,
          (processImportsT env (addDependenciesFromT env fuel)
            (mapSet g file []) file imports).2) := rfl

theorem buildLoopT_nil {env : Env F S E} {fuel : Nat} {g : DepMap F} :
    buildLoopT env fuel g [] = ([], .ok g) := rfl

theorem buildLoopT_cons {env : Env F S E} {fuel : Nat} {g : DepMap F}
    {ep : F} {rest : List F} :
    buildLoopT env fuel g (ep :: rest) =
      if mapHas g ep then buildLoopT env fuel g rest
      else
        match addDependenciesFromT env fuel g ep with
        | (t1, .ok g1) =>
          (t1 ++ (buildLoopT env fuel g1 rest).1,
            (buildLoopT env fuel g1 rest).2)
        | (t1, .err e) => (t1, .err e)
        | (t1, .fuelOut) => (t1, .fuelOut) := rfl

end TraceBasics

section TraceMaster

variable [DecidableEq F]

/-- Master accounting of a successful resolution loop run: new keys are
exactly the freshly visited files in admission order, extraction events
coincide with visit events, the resolution events charged to the current
file are exactly the processed specifiers, files already registered other
than the current one get no resolution events, every freshly visited file
gets exactly its own extracted specifiers as resolution events, and every
resolution event is charged to a registered file. -/
theorem processImportsT_ok {env : Env F S E}
    {recur : DepMap F → F → List (Ev F S) × BuildRes F E} {file : F}
    (hrec : ∀ m f t m'', mapHas m f = false → (keysOf m).Nodup →
      recur m f = (t, .ok m'') →
      keysOf m'' = keysOf m ++ visitsOf t ∧
      (keysOf m'').Nodup ∧
      extractsOf t = visitsOf t ∧
      (∀ f' ∈ keysOf m, resolvesSrc f' t = []) ∧
      (∀ f' ∈ visitsOf t, ∃ L, env.getImports f' = .ok L ∧
        resolvesSrc f' t = L) ∧
      (∀ g' s, Ev.resolve g' s ∈ t → g' ∈ keysOf m'')) :
    ∀ (imps : List S) (m : DepMap F) (t : List (Ev F S)) (m' : DepMap F),
      file ∈ keysOf m → (keysOf m).Nodup →
      processImportsT env recur m file imps = (t, .ok m') →
      keysOf m' = keysOf m ++ visitsOf t ∧
      (keysOf m').Nodup ∧
      extractsOf t = visitsOf t ∧
      resolvesSrc file t = imps ∧
      (∀ f' ∈ keysOf m, f' ≠ file → resolvesSrc f' t = []) ∧
      (∀ f' ∈ visitsOf t, ∃ L, env.getImports f' = .ok L ∧
        resolvesSrc f' t = L) ∧
      (∀ g' s, Ev.resolve g' s ∈ t → g' ∈ keysOf m') := by
  intro imps
  induction imps with
  | nil =>
    intro m t m' hfile hnodup h
    rw [processImportsT_nil] at h
    injection h with h1 h2
    subst h1
    injection h2 with h2
    subst h2
    refine ⟨by simp [visitsOf], hnodup, rfl, rfl,
      fun f' _ _ => rfl, fun f' hf' => absurd hf' (List.not_mem_nil f'),
      fun g' s hmem => absurd hmem (List.not_mem_nil _)⟩
  | cons imp rest ih =>
    intro m t m' hfile hnodup h
    rw [processImportsT_cons] at h
    cases hr : env.resolveImport file imp with
    | error e =>
      simp only [hr] at h
      injection h with h1 h2
      exact BuildRes.noConfusion h2
    | ok dep =>
      simp only [hr] at h
      have hkeys1 : keysOf (addDep m file dep) = keysOf m :=
        keysOf_addDep_of_mem hfile
      by_cases hhas : mapHas (addDep m file dep) dep = true
      · rw [if_pos hhas] at h
        cases hpr : processImportsT env recur (addDep m file dep) file rest
          with
        | mk t2 r2 =>
          rw [hpr] at h
          injection h with h1 h2
          subst h1
          subst h2
          obtain ⟨c1, c2, c3, c4, c5, c6, c7⟩ :=
            ih _ t2 m' (by rw [hkeys1]; exact hfile) (by rw [hkeys1]; exact hnodup) hpr
          rw [hkeys1] at c1 c5
          have hvis : visitsOf (Ev.resolve file imp :: t2) = visitsOf t2 := rfl
          have hext : extractsOf (Ev.resolve file imp :: t2) = extractsOf t2 := rfl
          refine ⟨by rw [hvis]; exact c1, c2, by rw [hext, hvis]; exact c3,
            ?_, ?_, ?_, ?_⟩
          · rw [show resolvesSrc file (Ev.resolve file imp :: t2) =
              imp :: resolvesSrc file t2 by rw [resolvesSrc_cons_resolve, if_pos rfl], c4]
          · intro f' hf' hne
            rw [show resolvesSrc f' (Ev.resolve file imp :: t2) =
              resolvesSrc f' t2 by rw [resolvesSrc_cons_resolve, if_neg (fun hc => hne hc.symm)]]
            exact c5 f' hf' hne
          · intro f' hf'
            rw [hvis] at hf'
            have hne : f' ≠ file := by
              intro hc
              subst hc
              have hdis := (List.nodup_append.mp (c1 ▸ c2)).2.2
              exact hdis hfile hf'
            obtain ⟨L, hL, hval⟩ := c6 f' hf'
            refine ⟨L, hL, ?_⟩
            rw [show resolvesSrc f' (Ev.resolve file imp :: t2) =
              resolvesSrc f' t2 by rw [resolvesSrc_cons_resolve, if_neg (fun hc => hne hc.symm)]]
            exact hval
          · intro g' s hmem
            rcases List.mem_cons.mp hmem with hc | hc
            · injection hc with hg hs
              subst hg
              rw [c1]
              exact List.mem_append_left _ hfile
            · exact c7 g' s hc
      · rw [if_neg hhas] at h
        rw [Bool.not_eq_true] at hhas
        cases hres : recur (addDep m file dep) dep with
        | mk t1 r1 =>
          rw [hres] at h
          cases r1 with
          | ok g2 =>
            simp only [] at h
            cases hpr : processImportsT env recur g2 file rest with
            | mk t2 r2 =>
              rw [hpr] at h
              injection h with h1 h2
              subst h1
              subst h2
              obtain ⟨a1, a2, a3, a4, a5, a6⟩ :=
                hrec _ dep t1 g2 hhas (by rw [hkeys1]; exact hnodup) hres
              rw [hkeys1] at a1 a4
              have hfile2 : file ∈ keysOf g2 := by
                rw [a1]; exact List.mem_append_left _ hfile
              obtain ⟨c1, c2, c3, c4, c5, c6, c7⟩ :=
                ih g2 t2 m' hfile2 a2 hpr
              have hdis2 := (List.nodup_append.mp (a1 ▸ a2)).2.2
              have hdism' := (List.nodup_append.mp (c1 ▸ c2)).2.2
              have hvis : visitsOf (Ev.resolve file imp :: t1 ++ t2) =
                  visitsOf t1 ++ visitsOf t2 := by
                rw [show visitsOf (Ev.resolve file imp :: t1 ++ t2) =
                  visitsOf (t1 ++ t2) from rfl, visitsOf_append]
              have hres_cons : ∀ f' : F, f' ≠ file →
                  resolvesSrc f' (Ev.resolve file imp :: t1 ++ t2) =
                    resolvesSrc f' t1 ++ resolvesSrc f' t2 := by
                intro f' hne
                rw [show resolvesSrc f' (Ev.resolve file imp :: t1 ++ t2) =
                  resolvesSrc f' (t1 ++ t2) by
                    rw [show (Ev.resolve file imp :: t1 ++ t2) =
                      Ev.resolve file imp :: (t1 ++ t2) from rfl,
                      resolvesSrc_cons_resolve,
                      if_neg (fun hc => hne hc.symm)],
                  resolvesSrc_append]
              refine ⟨?_, c2, ?_, ?_, ?_, ?_, ?_⟩
              · rw [hvis, c1, a1, List.append_assoc]
              · rw [show extractsOf (Ev.resolve file imp :: t1 ++ t2) =
                  extractsOf (t1 ++ t2) from rfl, extractsOf_append, a3, c3,
                  hvis]
              · rw [show resolvesSrc file (Ev.resolve file imp :: t1 ++ t2) =
                  imp :: resolvesSrc file (t1 ++ t2) by
                    rw [show (Ev.resolve file imp :: t1 ++ t2) =
                      Ev.resolve file imp :: (t1 ++ t2) from rfl,
                      resolvesSrc_cons_resolve, if_pos rfl],
                  resolvesSrc_append, a4 file hfile, c4]
                rfl
              · intro f' hf' hne
                rw [hres_cons f' hne, a4 f' hf',
                  c5 f' (by rw [a1]; exact List.mem_append_left _ hf') hne]
                rfl
              · intro f' hf'
                rw [hvis] at hf'
                rcases List.mem_append.mp hf' with hf' | hf'
                · have hne : f' ≠ file := by
                    intro hc
                    subst hc
                    exact hdis2 hfile hf'
                  obtain ⟨L, hL, hval⟩ := a5 f' hf'
                  refine ⟨L, hL, ?_⟩
                  rw [hres_cons f' hne, hval,
                    c5 f' (by rw [a1]; exact List.mem_append_right _ hf') hne,
                    List.append_nil]
                · have hf'g2 : f' ∉ keysOf g2 := fun hc => hdism' hc hf'
                  have hne : f' ≠ file := fun hc => hf'g2 (hc ▸ hfile2)
                  obtain ⟨L, hL, hval⟩ := c6 f' hf'
                  refine ⟨L, hL, ?_⟩
                  rw [hres_cons f' hne,
                    resolvesSrc_eq_nil
                      (fun s hs => hf'g2 (a6 f' s hs)),
                    hval, List.nil_append]
              · intro g' s hmem
                rcases List.mem_cons.mp hmem with hc | hc
                · injection hc with hg hs
                  subst hg
                  rw [c1, a1]
                  exact List.mem_append_left _ (List.mem_append_left _ hfile)
                · rcases List.mem_append.mp hc with hc | hc
                  · rw [c1]
                    exact List.mem_append_left _ (a6 g' s hc)
                  · exact c7 g' s hc
          | err e =>
            simp only [] at h
            injection h with h1 h2
            exact BuildRes.noConfusion h2
          | fuelOut =>
            simp only [] at h
            injection h with h1 h2
            exact BuildRes.noConfusion h2

/-- Master accounting of a successful visit: its trace opens with the visit
and extraction of the file, the new keys are exactly the visited files in
admission order, extraction events coincide with visit events, every visited
file receives exactly its own extracted specifiers as resolution events, and
previously registered files receive none. -/
theorem addDependenciesFromT_ok {env : Env F S E} :
    ∀ (fuel : Nat) (m : DepMap F) (file : F) (t : List (Ev F S))
      (m'' : DepMap F),
      mapHas m file = false → (keysOf m).Nodup →
      addDependenciesFromT env fuel m file = (t, .ok m'') →
      keysOf m'' = keysOf m ++ visitsOf t ∧
      (keysOf m'').Nodup ∧
      extractsOf t = visitsOf t ∧
      (∀ f' ∈ keysOf m, resolvesSrc f' t = []) ∧
      (∀ f' ∈ visitsOf t, ∃ L, env.getImports f' = .ok L ∧
        resolvesSrc f' t = L) ∧
      (∀ g' s, Ev.resolve g' s ∈ t → g' ∈ keysOf m'') := by
  intro fuel
  induction fuel with
  | zero =>
    intro m file t m'' _ _ h
    rw [addDependenciesFromT_zero] at h
    injection h with h1 h2
    exact BuildRes.noConfusion h2
  | succ fuel ih =>
    intro m file t m'' hfresh hnodup h
    rw [addDependenciesFromT_succ] at h
    cases hi : env.getImports file with
    | error e =>
      simp only [hi] at h
      injection h with h1 h2
      exact BuildRes.noConfusion h2
    | ok imports =>
      simp only [hi] at h
      cases hpr : processImportsT env (addDependenciesFromT env fuel)
        (mapSet m file []) file imports with
      | mk tp rp =>
        rw [hpr] at h
        injection h with h1 h2
        subst h1
        subst h2
        have hfilenot : file ∉ keysOf m := mapHas_eq_false_iff.mp hfresh
        have hkeys1 : keysOf (mapSet m file ([] : List F)) =
            keysOf m ++ [file] := keysOf_mapSet_of_not_has hfresh
        have hfilemem : file ∈ keysOf (mapSet m file ([] : List F)) := by
          rw [hkeys1]
          exact List.mem_append_right _ (List.mem_singleton.mpr rfl)
        have hnodup1 : (keysOf (mapSet m file ([] : List F))).Nodup := by
          rw [hkeys1]
          exact List.nodup_append.mpr ⟨hnodup, List.nodup_singleton file,
            fun a ha hb => hfilenot (by rwa [List.mem_singleton.mp hb] at ha)⟩
        obtain ⟨c1, c2, c3, c4, c5, c6, c7⟩ :=
          processImportsT_ok (fun m f t m'' hf hn hok => ih m f t m'' hf hn hok)
            imports _ tp m'' hfilemem hnodup1 hpr
        rw [hkeys1] at c1 c5
        have hdism'' := (List.nodup_append.mp (c1 ▸ c2)).2.2
        have hvis : visitsOf (Ev.visit file :: Ev.extract file :: tp) =
            file :: visitsOf tp := rfl
        have hext : extractsOf (Ev.visit file :: Ev.extract file :: tp) =
            file :: extractsOf tp := rfl
        have hrs : ∀ f' : F,
            resolvesSrc f' (Ev.visit file :: Ev.extract file :: tp) =
              resolvesSrc f' tp := fun f' => rfl
        refine ⟨?_, c2, ?_, ?_, ?_, ?_⟩
        · rw [hvis, c1, List.append_assoc, List.singleton_append]
        · rw [hext, hvis, c3]
        · intro f' hf'
          rw [hrs f']
          have hne : f' ≠ file := fun hc => hfilenot (hc ▸ hf')
          exact c5 f' (List.mem_append_left _ hf') hne
        · intro f' hf'
          rw [hvis] at hf'
          rcases List.mem_cons.mp hf' with hc | hc
          · subst hc
            exact ⟨imports, hi, by rw [hrs f']; exact c4⟩
          · have hne : f' ≠ file := by
              intro he
              subst he
              exact hdism''
                (List.mem_append_right _ (List.mem_singleton.mpr rfl)) hc
            obtain ⟨L, hL, hval⟩ := c6 f' hc
            exact ⟨L, hL, by rw [hrs f']; exact hval⟩
        · intro g' s hmem
          rcases List.mem_cons.mp hmem with hc | hc
          · exact Ev.noConfusion hc
          · rcases List.mem_cons.mp hc with hc | hc
            · exact Ev.noConfusion hc
            · exact c7 g' s hc

/-- Master accounting of a successful entry-point loop run. -/
theorem buildLoopT_ok {env : Env F S E} {fuel : Nat} :
    ∀ (eps : List F) (m : DepMap F) (t : List (Ev F S)) (m' : DepMap F),
      (keysOf m).Nodup →
      buildLoopT env fuel m eps = (t, .ok m') →
      keysOf m' = keysOf m ++ visitsOf t ∧
      (keysOf m').Nodup ∧
      extractsOf t = visitsOf t ∧
      (∀ f' ∈ keysOf m, resolvesSrc f' t = []) ∧
      (∀ f' ∈ visitsOf t, ∃ L, env.getImports f' = .ok L ∧
        resolvesSrc f' t = L) ∧
      (∀ g' s, Ev.resolve g' s ∈ t → g' ∈ keysOf m') := by
  intro eps
  induction eps with
  | nil =>
    intro m t m' hnodup h
    rw [buildLoopT_nil] at h
    injection h with h1 h2
    subst h1
    injection h2 with h2
    subst h2
    refine ⟨by simp [visitsOf], hnodup, rfl,
      fun f' _ => rfl, fun f' hf' => absurd hf' (List.not_mem_nil f'),
      fun g' s hmem => absurd hmem (List.not_mem_nil _)⟩
  | cons ep rest ih =>
    intro m t m' hnodup h
    rw [buildLoopT_cons] at h
    by_cases hhas : mapHas m ep = true
    · rw [if_pos hhas] at h
      exact ih m t m' hnodup h
    · rw [if_neg hhas] at h
      rw [Bool.not_eq_true] at hhas
      cases hres : addDependenciesFromT env fuel m ep with
      | mk t1 r1 =>
        rw [hres] at h
        cases r1 with
        | ok g1 =>
          simp only [] at h
          cases hrest : buildLoopT env fuel g1 rest with
          | mk t2 r2 =>
            rw [hrest] at h
            injection h with h1 h2
            subst h1
            subst h2
            obtain ⟨a1, a2, a3, a4, a5, a6⟩ :=
              addDependenciesFromT_ok fuel m ep t1 g1 hhas hnodup hres
            obtain ⟨c1, c2, c3, c4, c5, c6⟩ := ih g1 t2 m' a2 hrest
            have hdis1 := (List.nodup_append.mp (a1 ▸ a2)).2.2
            have hdis2 := (List.nodup_append.mp (c1 ▸ c2)).2.2
            refine ⟨?_, c2, ?_, ?_, ?_, ?_⟩
            · rw [visitsOf_append, c1, a1, List.append_assoc]
            · rw [extractsOf_append, visitsOf_append, a3, c3]
            · intro f' hf'
              rw [resolvesSrc_append, a4 f' hf',
                c4 f' (by rw [a1]; exact List.mem_append_left _ hf')]
              rfl
            · intro f' hf'
              rw [visitsOf_append] at hf'
              rcases List.mem_append.mp hf' with hc | hc
              · obtain ⟨L, hL, hval⟩ := a5 f' hc
                refine ⟨L, hL, ?_⟩
                rw [resolvesSrc_append, hval,
                  c4 f' (by rw [a1]; exact List.mem_append_right _ hc),
                  List.append_nil]
              · have hf'g1 : f' ∉ keysOf g1 := fun hmem => hdis2 hmem hc
                obtain ⟨L, hL, hval⟩ := c5 f' hc
                refine ⟨L, hL, ?_⟩
                rw [resolvesSrc_append,
                  resolvesSrc_eq_nil (fun s hs => hf'g1 (a6 f' s hs)), hval,
                  List.nil_append]
            · intro g' s hmem
              rcases List.mem_append.mp hmem with hc | hc
              · rw [c1]
                exact List.mem_append_left _ (a6 g' s hc)
              · exact c6 g' s hc
        | err e =>
          simp only [] at h
          injection h with h1 h2
          exact BuildRes.noConfusion h2
        | fuelOut =>
          simp only [] at h
          injection h with h1 h2
          exact BuildRes.noConfusion h2

end TraceMaster

section TraceVisited

variable [DecidableEq F]

/-- In the resolution loop, every event concerns an already-registered file.
-/
theorem processImportsT_visited {env : Env F S E}
    {recur : DepMap F → F → List (Ev F S) × BuildRes F E} {file : F}
    (hrec : ∀ m f, mapHas m f = false → (keysOf m).Nodup →
      VisitedBefore (keysOf m) (recur m f).1)
    (hrecok : ∀ m f t m'', mapHas m f = false → (keysOf m).Nodup →
      recur m f = (t, .ok m'') →
      keysOf m'' = keysOf m ++ visitsOf t ∧ (keysOf m'').Nodup) :
    ∀ (imps : List S) (m : DepMap F),
      file ∈ keysOf m → (keysOf m).Nodup →
      VisitedBefore (keysOf m)
        (processImportsT env recur m file imps).1 := by
  intro imps
  induction imps with
  | nil =>
    intro m _ _
    rw [processImportsT_nil]
    exact VisitedBefore_nil
  | cons imp rest ih =>
    intro m hfile hnodup
    rw [processImportsT_cons]
    cases hr : env.resolveImport file imp with
    | error e =>
      simp only []
      rw [VisitedBefore_cons_resolve]
      exact ⟨hfile, VisitedBefore_nil⟩
    | ok dep =>
      simp only []
      have hkeys1 : keysOf (addDep m file dep) = keysOf m :=
        keysOf_addDep_of_mem hfile
      by_cases hhas : mapHas (addDep m file dep) dep = true
      · rw [if_pos hhas]
        simp only []
        rw [VisitedBefore_cons_resolve]
        refine ⟨hfile, ?_⟩
        have := ih (addDep m file dep) (by rw [hkeys1]; exact hfile)
          (by rw [hkeys1]; exact hnodup)
        rwa [hkeys1] at this
      · rw [if_neg hhas]
        rw [Bool.not_eq_true] at hhas
        cases hres : recur (addDep m file dep) dep with
        | mk t1 r1 =>
          have hvb1 : VisitedBefore (keysOf m) t1 := by
            have := hrec (addDep m file dep) dep hhas
              (by rw [hkeys1]; exact hnodup)
            rwa [hres, hkeys1] at this
          cases r1 with
          | ok g2 =>
            simp only []
            rw [show (Ev.resolve file imp :: t1 ++
              (processImportsT env recur g2 file rest).1) =
              Ev.resolve file imp :: (t1 ++
                (processImportsT env recur g2 file rest).1) from rfl,
              VisitedBefore_cons_resolve]
            refine ⟨hfile, ?_⟩
            obtain ⟨a1, a2⟩ := hrecok _ dep t1 g2 hhas
              (by rw [hkeys1]; exact hnodup) hres
            rw [hkeys1] at a1
            have hfile2 : file ∈ keysOf g2 := by
              rw [a1]; exact List.mem_append_left _ hfile
            refine VisitedBefore_append hvb1
              (VisitedBefore_mono ?_ (ih g2 hfile2 a2))
            intro x hx
            rw [a1] at hx
            rcases List.mem_append.mp hx with hx | hx
            · exact List.mem_append_right _ hx
            · exact List.mem_append_left _ hx
          | err e =>
            simp only []
            rw [VisitedBefore_cons_resolve]
            exact ⟨hfile, hvb1⟩
          | fuelOut =>
            simp only []
            rw [VisitedBefore_cons_resolve]
            exact ⟨hfile, hvb1⟩

/-- In a visit, every event concerns an already-registered file; in
particular the visited file is registered strictly before its extraction and
before any of its resolutions. -/
theorem addDependenciesFromT_visited {env : Env F S E} :
    ∀ (fuel : Nat) (m : DepMap F) (file : F),
      mapHas m file = false → (keysOf m).Nodup →
      VisitedBefore (keysOf m) (addDependenciesFromT env fuel m file).1 := by
  intro fuel
  induction fuel with
  | zero =>
    intro m file _ _
    rw [addDependenciesFromT_zero]
    exact VisitedBefore_nil
  | succ fuel ih =>
    intro m file hfresh hnodup
    rw [addDependenciesFromT_succ]
    have hfilenot : file ∉ keysOf m := mapHas_eq_false_iff.mp hfresh
    have hkeys1 : keysOf (mapSet m file ([] : List F)) =
        keysOf m ++ [file] := keysOf_mapSet_of_not_has hfresh
    have hfilemem : file ∈ keysOf (mapSet m file ([] : List F)) := by
      rw [hkeys1]
      exact List.mem_append_right _ (List.mem_singleton.mpr rfl)
    have hnodup1 : (keysOf (mapSet m file ([] : List F))).Nodup := by
      rw [hkeys1]
      exact List.nodup_append.mpr ⟨hnodup, List.nodup_singleton file,
        fun a ha hb => hfilenot (by rwa [List.mem_singleton.mp hb] at ha)⟩
    cases hi : env.getImports file with
    | error e =>
      simp only []
      rw [VisitedBefore_cons_visit, VisitedBefore_cons_extract]
      exact ⟨List.mem_cons_self _ _, VisitedBefore_nil⟩
    | ok imports =>
      simp only []
      rw [VisitedBefore_cons_visit, VisitedBefore_cons_extract]
      refine ⟨List.mem_cons_self _ _, ?_⟩
      refine VisitedBefore_mono ?_
        (processImportsT_visited (fun m f hf hn => ih m f hf hn)
          (fun m f t m'' hf hn hok =>
            ⟨(addDependenciesFromT_ok fuel m f t m'' hf hn hok).1,
              (addDependenciesFromT_ok fuel m f t m'' hf hn hok).2.1⟩)
          imports _ hfilemem hnodup1)
      intro x hx
      rw [hkeys1] at hx
      rcases List.mem_append.mp hx with hx | hx
      · exact List.mem_cons_of_mem _ hx
      · rw [List.mem_singleton] at hx
        exact hx ▸ List.mem_cons_self _ _

/-- In the entry-point loop, every event concerns an already-registered
file. -/
theorem buildLoopT_visited {env : Env F S E} {fuel : Nat} :
    ∀ (eps : List F) (m : DepMap F), (keysOf m).Nodup →
      VisitedBefore (keysOf m) (buildLoopT env fuel m eps).1 := by
  intro eps
  induction eps with
  | nil =>
    intro m _
    rw [buildLoopT_nil]
    exact VisitedBefore_nil
  | cons ep rest ih =>
    intro m hnodup
    rw [buildLoopT_cons]
    by_cases hhas : mapHas m ep = true
    · rw [if_pos hhas]
      exact ih m hnodup
    · rw [if_neg hhas]
      rw [Bool.not_eq_true] at hhas
      cases hres : addDependenciesFromT env fuel m ep with
      | mk t1 r1 =>
        have hvb1 : VisitedBefore (keysOf m) t1 := by
          have := @addDependenciesFromT_visited F S E _ env fuel m ep hhas hnodup
          rwa [hres] at this
        cases r1 with
        | ok g1 =>
          simp only []
          obtain ⟨a1, a2, _⟩ :=
            addDependenciesFromT_ok fuel m ep t1 g1 hhas hnodup hres
          refine VisitedBefore_append hvb1
            (VisitedBefore_mono ?_ (ih g1 a2))
          intro x hx
          rw [a1] at hx
          rcases List.mem_append.mp hx with hx | hx
          · exact List.mem_append_right _ hx
          · exact List.mem_append_left _ hx
        | err e =>
          simp only []
          exact hvb1
        | fuelOut =>
          simp only []
          exact hvb1

end TraceVisited

section TraceGraphLevel

variable [DecidableEq F]

theorem createT_ok_elim {env : Env F S E} {fuel : Nat} {eps : List F}
    {t : List (Ev F S)} {g : DependencyGraph F}
    (h : createFromMultipleEntryPointsT env fuel eps = (t, .ok g)) :
    buildLoopT env fuel [] eps = (t, .ok g.dependenciesPerFile) ∧
      g.entryPoints = eps := by
  unfold createFromMultipleEntryPointsT at h
  cases hb : buildLoopT env fuel [] eps with
  | mk tb rb =>
    rw [hb] at h
    cases rb with
    | ok m =>
      simp only [] at h
      injection h with h1 h2
      subst h1
      injection h2 with h2
      subst h2
      exact ⟨rfl, rfl⟩
    | err e =>
      simp only [] at h
      injection h with h1 h2
      exact CreateRes.noConfusion h2
    | fuelOut =>
      simp only [] at h
      injection h with h1 h2
      exact CreateRes.noConfusion h2

theorem createT_fst {env : Env F S E} {fuel : Nat} {eps : List F} :
    (createFromMultipleEntryPointsT env fuel eps).1 =
      (buildLoopT env fuel [] eps).1 := by
  unfold createFromMultipleEntryPointsT
  cases hb : buildLoopT env fuel [] eps with
  | mk tb rb => cases rb <;> rfl

end TraceGraphLevel

section ClaimsTraced

variable [DecidableEq F]

/-- C2: in an instrumented successful build, every file appears exactly once
as a key of the final graph, the extractor is called exactly once per
registered file (the extraction events are exactly the keys, which carry no
duplicate), and the resolver is called exactly once per specifier of each
registered file (the resolution events charged to a file are exactly its own
extracted specifier list, once each, however many paths lead to the file). -/
theorem C2_admitted_once {env : Env F S E} {fuel : Nat} {eps : List F}
    {t : List (Ev F S)} {g : DependencyGraph F}
    (h : createFromMultipleEntryPointsT env fuel eps = (t, .ok g)) :
    (getResolvedFiles g).Nodup ∧
    extractsOf t = getResolvedFiles g ∧
    (∀ f ∈ getResolvedFiles g, ∃ L, env.getImports f = .ok L ∧
      resolvesSrc f t = L) := by
  obtain ⟨hb, _⟩ := createT_ok_elim h
  obtain ⟨c1, c2, c3, _, c5, _⟩ :=
    buildLoopT_ok eps [] t g.dependenciesPerFile List.nodup_nil hb
  have hkeys : getResolvedFiles g = visitsOf t := by
    rw [show getResolvedFiles g = keysOf g.dependenciesPerFile from rfl, c1]
    rfl
  refine ⟨c2, by rw [c3, hkeys], fun f hf => ?_⟩
  rw [hkeys] at hf
  exact c5 f hf

/-- C2 witness: in the diamond build (entry points `0` and `1`, both
importing `2`), the graph holds `2` once, `2` is extracted once, and each
file gets exactly its own specifiers resolved once. -/
theorem C2_witness :
    (getResolvedFiles (⟨[(0, [2]), (2, []), (1, [2])], [0, 1]⟩ :
      DependencyGraph Nat)).Nodup ∧
    extractsOf [Ev.visit 0, Ev.extract 0, Ev.resolve 0 2, Ev.visit 2,
      Ev.extract 2, Ev.visit 1, Ev.extract 1, Ev.resolve 1 2] =
      getResolvedFiles (⟨[(0, [2]), (2, []), (1, [2])], [0, 1]⟩ :
        DependencyGraph Nat) ∧
    (∀ f ∈ getResolvedFiles (⟨[(0, [2]), (2, []), (1, [2])], [0, 1]⟩ :
        DependencyGraph Nat),
      ∃ L, envDiamond.getImports f = .ok L ∧
        resolvesSrc f [Ev.visit 0, Ev.extract 0, Ev.resolve 0 2, Ev.visit 2,
          Ev.extract 2, Ev.visit 1, Ev.extract 1, Ev.resolve 1 2] = L) :=
  @C2_admitted_once Nat Nat Unit _ envDiamond 3 [0, 1] _ _ (by decide)

/-- C5: every file is registered in the graph (with an empty dependency set)
strictly before the extractor is called on it and before any of its
specifiers is resolved: in the full event trace of any run, each `extract`
or `resolve` event on a file is preceded by the `visit` event of that file,
so a file whose visit has started is a key at every later intermediate
state. -/
theorem C5_registered_before_extraction {env : Env F S E} {fuel : Nat}
    {eps : List F} :
    VisitedBefore []
      (createFromMultipleEntryPointsT env fuel eps).1 := by
  rw [createT_fst]
  have := @buildLoopT_visited F S E _ env fuel eps [] List.nodup_nil
  exact this

/-- C7: `getResolvedFiles` returns the keys of the final graph exactly in
admission order (the order of the `visit` events of the run), each admitted
file appearing exactly once. -/
theorem C7_admission_order {env : Env F S E} {fuel : Nat} {eps : List F}
    {t : List (Ev F S)} {g : DependencyGraph F}
    (h : createFromMultipleEntryPointsT env fuel eps = (t, .ok g)) :
    getResolvedFiles g = visitsOf t ∧ (getResolvedFiles g).Nodup := by
  obtain ⟨hb, _⟩ := createT_ok_elim h
  obtain ⟨c1, c2, _⟩ :=
    buildLoopT_ok eps [] t g.dependenciesPerFile List.nodup_nil hb
  constructor
  · rw [show getResolvedFiles g = keysOf g.dependenciesPerFile from rfl, c1]
    rfl
  · exact c2

/-- C7 witness: the cyclic build on entry point `0` admits `0` then `1`, in
visit-event order. -/
theorem C7_witness :
    getResolvedFiles (⟨[(0, [1]), (1, [0])], [0]⟩ : DependencyGraph Nat) =
      visitsOf [Ev.visit 0, Ev.extract 0, Ev.resolve 0 1, Ev.visit 1,
        Ev.extract 1, Ev.resolve 1 0] ∧
    (getResolvedFiles (⟨[(0, [1]), (1, [0])], [0]⟩ :
      DependencyGraph Nat)).Nodup :=
  @C7_admission_order Nat Nat Unit _ envAB 2 [0] _ _ (by decide)

end ClaimsTraced

section TraceProjection

variable [DecidableEq F]

/-- Dropping the event list from the instrumented resolution loop gives back
the plain resolution loop: the instrumentation is ghost. -/
theorem processImportsT_snd {env : Env F S E}
    {recurT : DepMap F → F → List (Ev F S) × BuildRes F E}
    {recur : DepMap F → F → BuildRes F E} {file : F}
    (hrec : ∀ m f, (recurT m f).2 = recur m f) :
    ∀ (imps : List S) (g : DepMap F),
      (processImportsT env recurT g file imps).2 =
        processImports env recur g file imps := by
  intro imps
  induction imps with
  | nil => intro g; rfl
  | cons imp rest ih =>
    intro g
    rw [processImportsT_cons, processImports_cons]
    cases hr : env.resolveImport file imp with
    | error e => rfl
    | ok dep =>
      simp only []
      by_cases hhas : mapHas (addDep g file dep) dep = true
      · rw [if_pos hhas, if_pos hhas]
        exact ih _
      · rw [if_neg hhas, if_neg hhas]
        cases hres : recurT (addDep g file dep) dep with
        | mk t1 r1 =>
          have h2 : r1 = recur (addDep g file dep) dep := by
            rw [← hrec, hres]
          rw [← h2]
          cases r1 with
          | ok g2 => exact ih _
          | err e => rfl
          | fuelOut => rfl

/-- Dropping the event list from an instrumented visit gives back the plain
visit. -/
theorem addDependenciesFromT_snd {env : Env F S E} :
    ∀ (fuel : Nat) (g : DepMap F) (file : F),
      (addDependenciesFromT env fuel g file).2 =
        addDependenciesFrom env fuel g file := by
  intro fuel
  induction fuel with
  | zero => intro g file; rfl
  | succ fuel ih =>
    intro g file
    rw [addDependenciesFromT_succ, addDependenciesFrom_succ]
    cases hi : env.getImports file with
    | error e => rfl
    | ok imports =>
      simp only []
      exact processImportsT_snd (fun m f => ih m f) imports _

/-- Dropping the event list from the instrumented entry-point loop gives
back the plain loop. -/
theorem buildLoopT_snd {env : Env F S E} {fuel : Nat} :
    ∀ (eps : List F) (g : DepMap F),
      (buildLoopT env fuel g eps).2 = buildLoop env fuel g eps := by
  intro eps
  induction eps with
  | nil => intro g; rfl
  | cons ep rest ih =>
    intro g
    rw [buildLoopT_cons, buildLoop_cons]
    by_cases hhas : mapHas g ep = true
    · rw [if_pos hhas, if_pos hhas]
      exact ih g
    · rw [if_neg hhas, if_neg hhas]
      cases hres : addDependenciesFromT env fuel g ep with
      | mk t1 r1 =>
        have h2 : r1 = addDependenciesFrom env fuel g ep := by
          rw [← addDependenciesFromT_snd fuel g ep, hres]
        rw [← h2]
        cases r1 with
        | ok g1 => exact ih g1
        | err e => rfl
        | fuelOut => rfl

/-- Dropping the event list from the instrumented build gives back the plain
build: the two compute the same graph, error, or fuel outcome. -/
theorem createFromMultipleEntryPointsT_snd {env : Env F S E} {fuel : Nat}
    {eps : List F} :
    (createFromMultipleEntryPointsT env fuel eps).2 =
      createFromMultipleEntryPoints env fuel eps := by
  unfold createFromMultipleEntryPointsT createFromMultipleEntryPoints
  have hb := @buildLoopT_snd F S E _ env fuel eps ([] : DepMap F)
  cases h : buildLoopT env fuel [] eps with
  | mk t r =>
    rw [h] at hb
    rw [← hb]
    cases r <;> rfl

end TraceProjection

section FailFast

variable [DecidableEq F]

theorem callsOk_nil {env : Env F S E} : CallsOk env [] :=
  ⟨fun f h => absurd h (List.not_mem_nil _),
    fun f s h => absurd h (List.not_mem_nil _)⟩

theorem callsOk_append {env : Env F S E} {t₁ t₂ : List (Ev F S)}
    (h₁ : CallsOk env t₁) (h₂ : CallsOk env t₂) :
    CallsOk env (t₁ ++ t₂) := by
  constructor
  · intro f hf
    rcases List.mem_append.mp hf with h | h
    · exact h₁.1 f h
    · exact h₂.1 f h
  · intro f s hf
    rcases List.mem_append.mp hf with h | h
    · exact h₁.2 f s h
    · exact h₂.2 f s h

theorem callsOk_cons_visit {env : Env F S E} {f : F} {t : List (Ev F S)}
    (h : CallsOk env t) : CallsOk env (Ev.visit f :: t) := by
  constructor
  · intro f' hf'
    rcases List.mem_cons.mp hf' with hc | hc
    · exact Ev.noConfusion hc
    · exact h.1 f' hc
  · intro f' s' hf'
    rcases List.mem_cons.mp hf' with hc | hc
    · exact Ev.noConfusion hc
    · exact h.2 f' s' hc

theorem callsOk_cons_extract {env : Env F S E} {f : F} {t : List (Ev F S)}
    (hL : ∃ L, env.getImports f = .ok L) (h : CallsOk env t) :
    CallsOk env (Ev.extract f :: t) := by
  constructor
  · intro f' hf'
    rcases List.mem_cons.mp hf' with hc | hc
    · injection hc with hc
      exact hc ▸ hL
    · exact h.1 f' hc
  · intro f' s' hf'
    rcases List.mem_cons.mp hf' with hc | hc
    · exact Ev.noConfusion hc
    · exact h.2 f' s' hc

theorem callsOk_cons_resolve {env : Env F S E} {f : F} {sp : S}
    {t : List (Ev F S)} (hd : ∃ d, env.resolveImport f sp = .ok d)
    (h : CallsOk env t) : CallsOk env (Ev.resolve f sp :: t) := by
  constructor
  · intro f' hf'
    rcases List.mem_cons.mp hf' with hc | hc
    · exact Ev.noConfusion hc
    · exact h.1 f' hc
  · intro f' s' hf'
    rcases List.mem_cons.mp hf' with hc | hc
    · injection hc with hc1 hc2
      subst hc1
      subst hc2
      exact hd
    · exact h.2 f' s' hc

/-- Fail-fast accounting of the resolution loop: on success every recorded
call succeeded; on an error the trace ends at the failing call, every call
before it succeeded, and the returned error is the one that call produced.
-/
theorem processImportsT_calls {env : Env F S E}
    {recur : DepMap F → F → List (Ev F S) × BuildRes F E} {file : F}
    (hrecok : ∀ m f t m'', recur m f = (t, .ok m'') → CallsOk env t)
    (hrecerr : ∀ m f t e, recur m f = (t, .err e) →
      ∃ t1 ev, t = t1 ++ [ev] ∧ CallsOk env t1 ∧ FailsWith env ev e) :
    ∀ (imps : List S) (m : DepMap F),
      (∀ t m', processImportsT env recur m file imps = (t, .ok m') →
        CallsOk env t) ∧
      (∀ t e, processImportsT env recur m file imps = (t, .err e) →
        ∃ t1 ev, t = t1 ++ [ev] ∧ CallsOk env t1 ∧ FailsWith env ev e) := by
  intro imps
  induction imps with
  | nil =>
    intro m
    refine ⟨fun t m' h => ?_, fun t e h => ?_⟩
    · rw [processImportsT_nil] at h
      injection h with h1 h2
      subst h1
      exact callsOk_nil
    · rw [processImportsT_nil] at h
      injection h with h1 h2
      exact BuildRes.noConfusion h2
  | cons imp rest ih =>
    intro m
    constructor
    · intro t m' h
      rw [processImportsT_cons] at h
      cases hr : env.resolveImport file imp with
      | error e =>
        simp only [hr] at h
        injection h with h1 h2
        exact BuildRes.noConfusion h2
      | ok dep =>
        simp only [hr] at h
        by_cases hhas : mapHas (addDep m file dep) dep = true
        · rw [if_pos hhas] at h
          cases hpr : processImportsT env recur (addDep m file dep) file rest
            with
          | mk tp rp =>
            rw [hpr] at h
            simp only [] at h
            injection h with h1 h2
            subst h1
            rw [h2] at hpr
            exact callsOk_cons_resolve ⟨dep, hr⟩ ((ih _).1 tp m' hpr)
        · rw [if_neg hhas] at h
          cases hres : recur (addDep m file dep) dep with
          | mk t1 r1 =>
            rw [hres] at h
            cases r1 with
            | ok g2 =>
              simp only [] at h
              cases hpr : processImportsT env recur g2 file rest with
              | mk t2 r2 =>
                rw [hpr] at h
                simp only [] at h
                injection h with h1 h2
                subst h1
                rw [h2] at hpr
                exact callsOk_cons_resolve ⟨dep, hr⟩
                  (callsOk_append (hrecok _ _ _ _ hres)
                    ((ih g2).1 t2 m' hpr))
            | err e =>
              simp only [] at h
              injection h with h1 h2
              exact BuildRes.noConfusion h2
            | fuelOut =>
              simp only [] at h
              injection h with h1 h2
              exact BuildRes.noConfusion h2
    · intro t e h
      rw [processImportsT_cons] at h
      cases hr : env.resolveImport file imp with
      | error e0 =>
        simp only [hr] at h
        injection h with h1 h2
        subst h1
        injection h2 with h2
        subst h2
        exact ⟨[], Ev.resolve file imp, rfl, callsOk_nil,
          Or.inr ⟨file, imp, rfl, hr⟩⟩
      | ok dep =>
        simp only [hr] at h
        by_cases hhas : mapHas (addDep m file dep) dep = true
        · rw [if_pos hhas] at h
          cases hpr : processImportsT env recur (addDep m file dep) file rest
            with
          | mk tp rp =>
            rw [hpr] at h
            simp only [] at h
            injection h with h1 h2
            subst h1
            rw [h2] at hpr
            obtain ⟨t1, ev, hdec, hok, hfail⟩ := (ih _).2 tp e hpr
            exact ⟨Ev.resolve file imp :: t1, ev, by rw [hdec]; rfl,
              callsOk_cons_resolve ⟨dep, hr⟩ hok, hfail⟩
        · rw [if_neg hhas] at h
          cases hres : recur (addDep m file dep) dep with
          | mk t1 r1 =>
            rw [hres] at h
            cases r1 with
            | ok g2 =>
              simp only [] at h
              cases hpr : processImportsT env recur g2 file rest with
              | mk t2 r2 =>
                rw [hpr] at h
                simp only [] at h
                injection h with h1 h2
                subst h1
                rw [h2] at hpr
                obtain ⟨t1x, ev, hdec, hok, hfail⟩ := (ih g2).2 t2 e hpr
                refine ⟨Ev.resolve file imp :: t1 ++ t1x, ev, ?_, ?_, hfail⟩
                · rw [hdec, List.append_assoc]
                · exact callsOk_cons_resolve ⟨dep, hr⟩
                    (callsOk_append (hrecok _ _ _ _ hres) hok)
            | err e1 =>
              simp only [] at h
              injection h with h1 h2
              subst h1
              injection h2 with h2
              subst h2
              obtain ⟨t1x, ev, hdec, hok, hfail⟩ := hrecerr _ _ _ _ hres
              exact ⟨Ev.resolve file imp :: t1x, ev, by rw [hdec]; rfl,
                callsOk_cons_resolve ⟨dep, hr⟩ hok, hfail⟩
            | fuelOut =>
              simp only [] at h
              injection h with h1 h2
              exact BuildRes.noConfusion h2

/-- Fail-fast accounting of a visit (see `processImportsT_calls`). -/
theorem addDependenciesFromT_calls {env : Env F S E} :
    ∀ (fuel : Nat) (m : DepMap F) (file : F),
      (∀ t m'', addDependenciesFromT env fuel m file = (t, .ok m'') →
        CallsOk env t) ∧
      (∀ t e, addDependenciesFromT env fuel m file = (t, .err e) →
        ∃ t1 ev, t = t1 ++ [ev] ∧ CallsOk env t1 ∧ FailsWith env ev e) := by
  intro fuel
  induction fuel with
  | zero =>
    intro m file
    refine ⟨fun t m'' h => ?_, fun t e h => ?_⟩
    · rw [addDependenciesFromT_zero] at h
      injection h with h1 h2
      exact BuildRes.noConfusion h2
    · rw [addDependenciesFromT_zero] at h
      injection h with h1 h2
      exact BuildRes.noConfusion h2
  | succ fuel ih =>
    intro m file
    constructor
    · intro t m'' h
      rw [addDependenciesFromT_succ] at h
      cases hi : env.getImports file with
      | error e =>
        simp only [hi] at h
        injection h with h1 h2
        exact BuildRes.noConfusion h2
      | ok imports =>
        simp only [hi] at h
        cases hpr : processImportsT env (addDependenciesFromT env fuel)
          (mapSet m file []) file imports with
        | mk tp rp =>
          rw [hpr] at h
          simp only [] at h
          injection h with h1 h2
          subst h1
          rw [h2] at hpr
          exact callsOk_cons_visit (callsOk_cons_extract ⟨imports, hi⟩
            ((processImportsT_calls (fun m f t m'' hok => (ih m f).1 t m'' hok)
              (fun m f t e herr => (ih m f).2 t e herr) imports _).1
              tp m'' hpr))
    · intro t e h
      rw [addDependenciesFromT_succ] at h
      cases hi : env.getImports file with
      | error e0 =>
        simp only [hi] at h
        injection h with h1 h2
        subst h1
        injection h2 with h2
        subst h2
        exact ⟨[Ev.visit file], Ev.extract file, rfl,
          callsOk_cons_visit callsOk_nil, Or.inl ⟨file, rfl, hi⟩⟩
      | ok imports =>
        simp only [hi] at h
        cases hpr : processImportsT env (addDependenciesFromT env fuel)
          (mapSet m file []) file imports with
        | mk tp rp =>
          rw [hpr] at h
          simp only [] at h
          injection h with h1 h2
          subst h1
          rw [h2] at hpr
          obtain ⟨t1, ev, hdec, hok, hfail⟩ :=
            (processImportsT_calls (fun m f t m'' hok => (ih m f).1 t m'' hok)
              (fun m f t e0 herr => (ih m f).2 t e0 herr) imports _).2
              tp e hpr
          exact ⟨Ev.visit file :: Ev.extract file :: t1, ev,
            by rw [hdec]; rfl,
            callsOk_cons_visit (callsOk_cons_extract ⟨imports, hi⟩ hok),
            hfail⟩

/-- Fail-fast accounting of the entry-point loop (see
`processImportsT_calls`). -/
theorem buildLoopT_calls {env : Env F S E} {fuel : Nat} :
    ∀ (eps : List F) (m : DepMap F),
      (∀ t m', buildLoopT env fuel m eps = (t, .ok m') → CallsOk env t) ∧
      (∀ t e, buildLoopT env fuel m eps = (t, .err e) →
        ∃ t1 ev, t = t1 ++ [ev] ∧ CallsOk env t1 ∧ FailsWith env ev e) := by
  intro eps
  induction eps with
  | nil =>
    intro m
    refine ⟨fun t m' h => ?_, fun t e h => ?_⟩
    · rw [buildLoopT_nil] at h
      injection h with h1 h2
      subst h1
      exact callsOk_nil
    · rw [buildLoopT_nil] at h
      injection h with h1 h2
      exact BuildRes.noConfusion h2
  | cons ep rest ih =>
    intro m
    constructor
    · intro t m' h
      rw [buildLoopT_cons] at h
      by_cases hhas : mapHas m ep = true
      · rw [if_pos hhas] at h
        exact (ih m).1 t m' h
      · rw [if_neg hhas] at h
        cases hres : addDependenciesFromT env fuel m ep with
        | mk t1 r1 =>
          rw [hres] at h
          cases r1 with
          | ok g1 =>
            simp only [] at h
            cases hrest : buildLoopT env fuel g1 rest with
            | mk t2 r2 =>
              rw [hrest] at h
              simp only [] at h
              injection h with h1 h2
              subst h1
              rw [h2] at hrest
              exact callsOk_append
                ((addDependenciesFromT_calls fuel m ep).1 t1 g1 hres)
                ((ih g1).1 t2 m' hrest)
          | err e =>
            simp only [] at h
            injection h with h1 h2
            exact BuildRes.noConfusion h2
          | fuelOut =>
            simp only [] at h
            injection h with h1 h2
            exact BuildRes.noConfusion h2
    · intro t e h
      rw [buildLoopT_cons] at h
      by_cases hhas : mapHas m ep = true
      · rw [if_pos hhas] at h
        exact (ih m).2 t e h
      · rw [if_neg hhas] at h
        cases hres : addDependenciesFromT env fuel m ep with
        | mk t1 r1 =>
          rw [hres] at h
          cases r1 with
          | ok g1 =>
            simp only [] at h
            cases hrest : buildLoopT env fuel g1 rest with
            | mk t2 r2 =>
              rw [hrest] at h
              simp only [] at h
              injection h with h1 h2
              subst h1
              rw [h2] at hrest
              obtain ⟨t1x, ev, hdec, hok, hfail⟩ := (ih g1).2 t2 e hrest
              refine ⟨t1 ++ t1x, ev, ?_, ?_, hfail⟩
              · rw [hdec, List.append_assoc]
              · exact callsOk_append
                  ((addDependenciesFromT_calls fuel m ep).1 t1 g1 hres) hok
          | err e1 =>
            simp only [] at h
            injection h with h1 h2
            subst h1
            injection h2 with h2
            subst h2
            exact (addDependenciesFromT_calls fuel m ep).2 _ _ hres
          | fuelOut =>
            simp only [] at h
            injection h with h1 h2
            exact BuildRes.noConfusion h2

theorem createT_err_elim {env : Env F S E} {fuel : Nat} {eps : List F}
    {t : List (Ev F S)} {e : E}
    (h : createFromMultipleEntryPointsT env fuel eps = (t, .err e)) :
    buildLoopT env fuel [] eps = (t, .err e) := by
  unfold createFromMultipleEntryPointsT at h
  cases hb : buildLoopT env fuel [] eps with
  | mk tb rb =>
    rw [hb] at h
    cases rb with
    | ok m =>
      simp only [] at h
      injection h with h1 h2
      exact CreateRes.noConfusion h2
    | err e0 =>
      simp only [] at h
      injection h with h1 h2
      subst h1
      injection h2 with h2
      subst h2
      rfl
    | fuelOut =>
      simp only [] at h
      injection h with h1 h2
      exact CreateRes.noConfusion h2

end FailFast

section ClaimC4

variable [DecidableEq F]

/-- C4: fail-fast, all-or-nothing.  A graph is only ever handed out when no
extractor or resolver call on any reachable file failed; and when the build
fails with an error, that error is the first encountered one: the reported
error was produced by a collaborator call on a reachable file, and in the
event trace of the run the failing call is the very last event, every
earlier call having succeeded — the run stops at the first failure and
surfaces exactly its error, with no graph value accompanying it (the error
outcome carries none). -/
theorem C4_failfast {env : Env F S E} {fuel : Nat} {eps : List F} :
    (∀ g, createFromMultipleEntryPoints env fuel eps = .ok g →
      ∀ f, Reaches env eps f →
        ∃ L, env.getImports f = .ok L ∧
          ∀ s ∈ L, ∃ d, env.resolveImport f s = .ok d) ∧
    (∀ e, createFromMultipleEntryPoints env fuel eps = .err e →
      ErrFrom env (Reaches env eps) e ∧
      ∃ t t1 ev, createFromMultipleEntryPointsT env fuel eps = (t, .err e) ∧
        t = t1 ++ [ev] ∧ CallsOk env t1 ∧ FailsWith env ev e) := by
  constructor
  · intro g h f hf
    obtain ⟨hb, _⟩ := create_ok_elim h
    obtain ⟨hfull, _, _⟩ := buildLoop_resolved eps [] g.dependenciesPerFile
      (fun k hk => absurd hk (List.not_mem_nil k))
      (fun k hk => absurd hk (List.not_mem_nil k))
      (fun k hk => absurd hk (List.not_mem_nil k)) hb
    obtain ⟨L, hL, hres⟩ := hfull f (reaches_mem_keys hb f hf)
    refine ⟨L, hL, fun s hs => ?_⟩
    obtain ⟨d, hd, _⟩ := hres s hs
    exact ⟨d, hd⟩
  · intro e h
    constructor
    · rw [create_err_iff] at h
      exact (buildLoop_closed closedUnder_reaches eps []
        (fun k hk => absurd hk (List.not_mem_nil k))
        (fun ep hep => Reaches.entry hep)).2 e h
    · have hsnd : (createFromMultipleEntryPointsT env fuel eps).2 = .err e := by
        rw [createFromMultipleEntryPointsT_snd]
        exact h
      cases hct : createFromMultipleEntryPointsT env fuel eps with
      | mk t r =>
        rw [hct] at hsnd
        simp only [] at hsnd
        subst hsnd
        obtain ⟨t1, ev, hdec, hok, hfail⟩ :=
          (buildLoopT_calls eps []).2 t e (createT_err_elim hct)
        exact ⟨t, t1, ev, rfl, hdec, hok, hfail⟩

/-- C4 witness: with entry point `0` whose second specifier the resolver
rejects, the build fails with exactly that resolution error: the error was
produced on a reachable file, the trace of the concrete run ends at the
failing resolver call, and every earlier call succeeded. -/
theorem C4_witness :
    ErrFrom envMissing (Reaches envMissing [0]) "missing" ∧
    ∃ t t1 ev,
      createFromMultipleEntryPointsT envMissing 3 [0] = (t, .err "missing") ∧
      t = t1 ++ [ev] ∧ CallsOk envMissing t1 ∧
      FailsWith envMissing ev "missing" :=
  (@C4_failfast Nat Nat String _ envMissing 3 [0]).2 "missing" (by decide)

end ClaimC4

end DependencyGraphSpec
